import Mathlib

/-!
# Verification of the doc-comment-extractor core

A shallow embedding of the comment-extraction pipeline
(`src/comment_extractor.py`, `src/main.py`, `src/formatters/*.py`):
strings are `List Char`, Python `dict`s keyed by strings are functions
`String → Option _`, and Python operations that can raise (`list.remove`,
`dict[k]`, `int(...)`) return `Option`.
-/

namespace DocComment

/-- Python's whitespace test used by `str.strip` / `lstrip` / `rstrip`
(the ASCII whitespace characters). -/
def pyIsSpace (c : Char) : Bool :=
  c = ' ' || c = '\t' || c = '\n' || c = '\r' || c = '\x0b' || c = '\x0c'

/-- `str.lstrip()`. -/
def pyLstrip (l : List Char) : List Char := l.dropWhile pyIsSpace

/-- `str.rstrip()`. -/
def pyRstrip (l : List Char) : List Char := (l.reverse.dropWhile pyIsSpace).reverse

/-- Scan the suffix `rest` (which starts at absolute index `i` of the
haystack) for the first occurrence of `needle`; `-1` when there is none.
Helper for `pyFind`. -/
def findIn (needle : List Char) : List Char → Nat → Int
  | rest, i =>
    if needle.isPrefixOf rest then (i : Int)
    else
      match rest with
      | [] => -1
      | _ :: t => findIn needle t (i + 1)

/-- Python `hay.find(needle, start)`: index of the first occurrence of
`needle` at or after `start`, `-1` when absent (also when `start` exceeds
the length). -/
def pyFind (hay needle : List Char) (start : Nat) : Int :=
  if start ≤ hay.length then findIn needle (hay.drop start) start else -1

/-- Python slice `l[a:b]` for non-negative bounds. -/
def pySliceN (l : List Char) (a b : Nat) : List Char := (l.take b).drop a

/-- `Section` dataclass (`comment_extractor.py` lines 73-78). -/
structure Section where
  start : Int
  end_ : Int
  raw_text : List Char
  stripped_text : List Char
deriving DecidableEq, Repr

/-- `extract_text_between_tokens` lines 112-122: the resolved index just
after the start token, `0` when the token is absent or not found. -/
def resolve_start (text : List Char) (start_token : Option (List Char)) : Nat :=
  match start_token with
  | none => 0
  | some tok =>
    let start_token_pos := pyFind text tok 0
    if start_token_pos < 0 then 0 else start_token_pos.toNat + tok.length

/-- `extract_text_between_tokens` lines 123-131: the resolved end index,
`len(text)` when the token is absent or not found at or after `start_idx`. -/
def resolve_end (text : List Char) (end_token : Option (List Char)) (start_idx : Nat) : Nat :=
  match end_token with
  | none => text.length
  | some tok =>
    let end_token_pos := pyFind text tok start_idx
    if end_token_pos < 0 then text.length else end_token_pos.toNat

/-- `CommentExtractor.extract_text_between_tokens` (`comment_extractor.py`
lines 109-144). -/
def extract_text_between_tokens (text : List Char)
    (start_token end_token : Option (List Char)) : Section :=
  let start_idx := resolve_start text start_token
  let end_idx := resolve_end text end_token start_idx
  let raw_text := pySliceN text start_idx end_idx
  let lstripped_text := pyLstrip raw_text
  let stripped_text := pyRstrip lstripped_text
  let blank_chars_before_start_token := raw_text.length - lstripped_text.length
  let blank_chars_before_end_token := lstripped_text.length - stripped_text.length
  { start := ((start_idx + blank_chars_before_start_token : Nat) : Int)
    end_ := (end_idx : Int) - (blank_chars_before_end_token : Int)
    raw_text := raw_text
    stripped_text := stripped_text }

/-- `HighlightRange` (`comment_extractor.py` lines 54-70, `main.py` lines
42-57): comment id, absolute start offset into the flattened text, the
section start bound later by the Reconciler, and the accumulated fragments. -/
structure HighlightRange where
  comment_id : String
  absolute_start : Nat
  section_start : Int
  texts : List (List Char)
deriving DecidableEq, Repr

/-- `HighlightRange.__init__` of `comment_extractor.py` (line 60):
`self.section_start = 0`. -/
def mkHighlightRange (comment_id : String) (absolute_start : Nat) : HighlightRange :=
  { comment_id := comment_id, absolute_start := absolute_start
    section_start := 0, texts := [] }

/-- `HighlightRange.__init__` of `main.py` (line 47):
`self.section_start = -1`. -/
def mkHighlightRangeMain (comment_id : String) (absolute_start : Nat) : HighlightRange :=
  { comment_id := comment_id, absolute_start := absolute_start
    section_start := -1, texts := [] }

/-- `HighlightRange.append`. -/
def HighlightRange.push (hr : HighlightRange) (t : List Char) : HighlightRange :=
  { hr with texts := hr.texts ++ [t] }

/-- `HighlightRange.get_text`: `''.join(self.texts)`. -/
def HighlightRange.get_text (hr : HighlightRange) : List Char := hr.texts.flatten

/-- `HighlightRange.get_relative_start`: `absolute_start - section_start`. -/
def HighlightRange.get_relative_start (hr : HighlightRange) : Int :=
  (hr.absolute_start : Int) - hr.section_start

/-! ## The Tree Walker / Flattening Engine (`_extract_highlight_ranges`) -/

/-- The document-body elements the walk reacts to, in the pre-order
`doc_root.iter()` yields them; every other element kind is `other`. -/
inductive DocNode where
  | rangeStart (id : String)
  | rangeEnd (id : String)
  | textRun (content : List Char)
  | paragraph
  | lineBreak
  | other
deriving DecidableEq, Repr

/-- `self.new_line = "\n"`. -/
def newLine : List Char := ['\n']

/-- The mutable state of `_extract_highlight_ranges`: the list of currently
open range ids, the id → `HighlightRange` dictionary, the flattened text,
and the first-paragraph flag. -/
structure WalkState where
  current_range_ids : List String
  ranges : String → Option HighlightRange
  full_text : List Char
  is_first_paragraph : Bool

/-- `comment_id_to_range[id] = hr`. -/
def updateMap (m : String → Option HighlightRange) (id : String) (hr : HighlightRange) :
    String → Option HighlightRange :=
  fun k => if k = id then some hr else m k

/-- Python `list.remove(x)`: drop the first occurrence of `x`; `none`
(a `ValueError`) when `x` is absent. -/
def pyRemove : List String → String → Option (List String)
  | [], _ => none
  | x :: rest, a => if x = a then some rest else (pyRemove rest a).map (x :: ·)

/-- The loop `for comment_id in current_range_ids:
comment_id_to_range[comment_id].append(t)`; `none` (a `KeyError`) when an
open id has no dictionary entry. -/
def appendAll : List String → (String → Option HighlightRange) → List Char →
    Option (String → Option HighlightRange)
  | [], m, _ => some m
  | id :: rest, m, t =>
    match m id with
    | none => none
    | some hr => appendAll rest (updateMap m id (hr.push t)) t

/-- One iteration of the `for elem in doc_root.iter()` loop of
`_extract_highlight_ranges` (`comment_extractor.py` lines 183-214). -/
def wStep (s : WalkState) (e : DocNode) : Option WalkState :=
  match e with
  | .rangeStart id =>
    some { s with
      current_range_ids := s.current_range_ids ++ [id]
      ranges := updateMap s.ranges id (mkHighlightRange id s.full_text.length) }
  | .rangeEnd id =>
    if (s.ranges id).isSome then
      match pyRemove s.current_range_ids id with
      | none => none
      | some l => some { s with current_range_ids := l }
    else some s
  | .textRun t =>
    if t.isEmpty then some s
    else
      match appendAll s.current_range_ids s.ranges t with
      | none => none
      | some m => some { s with ranges := m, full_text := s.full_text ++ t }
  | .paragraph =>
    if s.is_first_paragraph then some { s with is_first_paragraph := false }
    else
      match appendAll s.current_range_ids s.ranges newLine with
      | none => none
      | some m => some { s with ranges := m, full_text := s.full_text ++ newLine }
  | .lineBreak =>
    match appendAll s.current_range_ids s.ranges newLine with
    | none => none
    | some m => some { s with ranges := m, full_text := s.full_text ++ newLine }
  | .other => some s

/-- The walk loop over the node list. -/
def walkAux : WalkState → List DocNode → Option WalkState
  | s, [] => some s
  | s, e :: rest =>
    match wStep s e with
    | none => none
    | some s' => walkAux s' rest

/-- The state at the top of `_extract_highlight_ranges`. -/
def initState : WalkState :=
  { current_range_ids := []
    ranges := fun _ => none
    full_text := []
    is_first_paragraph := true }

/-- `_extract_highlight_ranges` (`comment_extractor.py` lines 173-216): a
`none` `doc_root` yields the empty map and empty text. -/
def extract_highlight_ranges (doc_root : Option (List DocNode)) : Option WalkState :=
  match doc_root with
  | none => some initState
  | some nodes => walkAux initState nodes

/-- Whether a node is a range-open or range-close marker. -/
def isRangeMarker : DocNode → Bool
  | .rangeStart _ => true
  | .rangeEnd _ => true
  | _ => false

/-- The ids of the range-open markers, in order. -/
def opensOf (nodes : List DocNode) : List String :=
  nodes.filterMap fun e =>
    match e with
    | .rangeStart id => some id
    | _ => none

/-- The ids of the range-close markers, in order. -/
def closesOf (nodes : List DocNode) : List String :=
  nodes.filterMap fun e =>
    match e with
    | .rangeEnd id => some id
    | _ => none

/-- Modelled from the spec (§8 first property, for C4): the flattened text
of a document with no range markers is the concatenation of all text-run
contents with a single line separator at each non-first paragraph boundary
and at each explicit line break. The flag is true while no paragraph
boundary has been seen yet. -/
def flattenSpec : Bool → List DocNode → List Char
  | _, [] => []
  | b, .textRun t :: rest => t ++ flattenSpec b rest
  | true, .paragraph :: rest => flattenSpec false rest
  | false, .paragraph :: rest => newLine ++ flattenSpec false rest
  | b, .lineBreak :: rest => newLine ++ flattenSpec b rest
  | b, .rangeStart _ :: rest => flattenSpec b rest
  | b, .rangeEnd _ :: rest => flattenSpec b rest
  | b, .other :: rest => flattenSpec b rest

/-- Every currently open range id has an entry in the range dictionary
(holds in every reachable walk state). -/
def OpenInMap (s : WalkState) : Prop :=
  ∀ id ∈ s.current_range_ids, (s.ranges id).isSome

/-- Every id still to be closed that already has a dictionary entry is
currently open: the property that makes `list.remove` in the
`commentRangeEnd` branch safe. -/
def CloseSafe (s : WalkState) (rest : List DocNode) : Prop :=
  ∀ id, DocNode.rangeEnd id ∈ rest → (s.ranges id).isSome → id ∈ s.current_range_ids

/-! ## The Reply Filter and the Reconciler (`_get_sub_comments`,
`_extract_comments`) -/

/-- A maximal run of decimal digits as a number; `none` when empty or when a
non-digit occurs. Helper for `pyInt`. -/
def parseDigits (ds : List Char) : Option Nat :=
  if ds.isEmpty then none
  else if ds.all Char.isDigit then
    some (ds.foldl (fun acc c => acc * 10 + (c.toNat - 48)) 0)
  else none

/-- Python `int(str)`: optional surrounding whitespace, an optional sign,
then decimal digits; `none` (a `ValueError`) otherwise. Used for
`int(comment_id)` in `_extract_comments`. -/
def pyInt (s : List Char) : Option Int :=
  match pyRstrip (pyLstrip s) with
  | '-' :: ds => (parseDigits ds).map fun n => -(n : Int)
  | '+' :: ds => (parseDigits ds).map fun n => (n : Int)
  | ds => (parseDigits ds).map fun n => (n : Int)

/-- One `w15:commentEx` element of the extended-annotation payload: its
`w15:paraId` and optional `w15:paraIdParent` attributes. -/
structure CommentEx where
  para_id : Option String
  para_id_parent : Option String
deriving DecidableEq, Repr

/-- `_get_sub_comments` (`comment_extractor.py` lines 218-232): the
paragraph ids whose entry carries a parent id; empty when the payload is
absent. (Python collects them in a `set`; the list here is
membership-equivalent.) -/
def get_sub_comments (comments_extend_root : Option (List CommentEx)) :
    List (Option String) :=
  match comments_extend_root with
  | none => []
  | some l =>
    l.foldl (fun acc e => if e.para_id_parent.isSome then acc ++ [e.para_id] else acc) []

/-- One `w:comment` element of the annotations payload: its `w:id`,
whether it contains a `w:p` and that paragraph's `w14:paraId`, the
`w:author` and `w:date` attributes, and the texts of its `w:t`
descendants (an empty run stands for a `None` `p.text`). -/
structure CommentNode where
  comment_id : String
  has_para : Bool
  para_id : Option String
  author : Option (List Char)
  date : Option (List Char)
  body_texts : List (List Char)
deriving DecidableEq, Repr

/-- `_extract_comment_text`: the space-join of the non-empty `w:t` texts. -/
def extract_comment_text (runs : List (List Char)) : List Char :=
  List.intercalate [' '] (runs.filter fun t => !t.isEmpty)

/-- The dict built by `Comment.get_dict`: id, start, end, highlighted and
comment text, with author/date present only when the configuration asks
for them. -/
structure CommentDict where
  id : Int
  start : Int
  end_ : Int
  highlighted_text : List Char
  comment_text : List Char
  author : Option (List Char)
  date : Option (List Char)
deriving DecidableEq, Repr

/-- `_extract_comments` (`comment_extractor.py` lines 242-291). `now`
stands for `datetime.now().isoformat()`, the default for a missing date
attribute; the result is `none` when `int(comment_id)` raises on a
non-numeric id. (The Python code also writes `section_start` back into the
shared `HighlightRange`; the only later read of that field re-binds it
first, so binding a local copy is behaviorally identical.) -/
def extract_comments (nodes : List CommentNode)
    (comment_id_to_range : String → Option HighlightRange) (section_start : Int)
    (sub_comments : List (Option String)) (include_author include_date : Bool)
    (now : List Char) : Option (List CommentDict) :=
  match nodes with
  | [] => some []
  | n :: rest =>
    if ¬ n.has_para then
      extract_comments rest comment_id_to_range section_start sub_comments
        include_author include_date now
    else if n.para_id ∈ sub_comments then
      extract_comments rest comment_id_to_range section_start sub_comments
        include_author include_date now
    else
      match comment_id_to_range n.comment_id with
      | none =>
        extract_comments rest comment_id_to_range section_start sub_comments
          include_author include_date now
      | some highlighted_range =>
        let bound := { highlighted_range with section_start := section_start }
        let pos := bound.get_relative_start
        if pos < 0 then
          extract_comments rest comment_id_to_range section_start sub_comments
            include_author include_date now
        else
          match pyInt n.comment_id.data,
            extract_comments rest comment_id_to_range section_start sub_comments
              include_author include_date now with
          | none, _ => none
          | some _, none => none
          | some i, some comments =>
            some ({ id := i
                    start := pos
                    end_ := pos + bound.get_text.length
                    highlighted_text := bound.get_text
                    comment_text := extract_comment_text n.body_texts
                    author := if include_author then some (n.author.getD []) else none
                    date := if include_date then some (n.date.getD now) else none }
              :: comments)

/-! ## The serializers (`formatters/xml_formatter.py`,
`formatters/html_formatter.py`) -/

/-- The double-quote character. -/
def quoteChar : Char := Char.ofNat 34

/-- The apostrophe character. -/
def apostChar : Char := Char.ofNat 39

/-- Python `str.replace(old, new)` specialized to the single-character
patterns the formatters use. -/
def pyReplaceChar : List Char → Char → List Char → List Char
  | [], _, _ => []
  | x :: s, c, rep =>
    if x = c then rep ++ pyReplaceChar s c rep else x :: pyReplaceChar s c rep

/-- `XmlFormatter._escape_xml` (`xml_formatter.py` lines 58-68): `""` for
`None`, else the chained `&`, `<`, `>`, `"`, `\'` replacements. -/
def escape_xml (t : Option (List Char)) : List Char :=
  match t with
  | none => []
  | some s =>
    pyReplaceChar (pyReplaceChar (pyReplaceChar (pyReplaceChar (pyReplaceChar s
      '&' ("&amp;".data)) '<' ("&lt;".data)) '>' ("&gt;".data))
      quoteChar ("&quot;".data)) apostChar ("&apos;".data)

/-- The decimal digit characters, as Python renders them in `str(i)`. -/
def digitChar (n : Nat) : Char :=
  if n = 0 then '0' else if n = 1 then '1' else if n = 2 then '2' else if n = 3 then '3'
  else if n = 4 then '4' else if n = 5 then '5' else if n = 6 then '6' else if n = 7 then '7'
  else if n = 8 then '8' else '9'

/-- Accumulator loop for `natToStr`; the fuel is an upper bound on the
number of digits. -/
def natToStrAux : Nat → Nat → List Char → List Char
  | 0, _, acc => acc
  | fuel + 1, n, acc =>
    if n < 10 then digitChar n :: acc
    else natToStrAux fuel (n / 10) (digitChar (n % 10) :: acc)

/-- Python `str(i)` for a non-negative integer: its decimal digits. -/
def natToStr (n : Nat) : List Char := natToStrAux (n + 1) n []

/-- One entry of the `positions` list of `XmlFormatter.format`: the tuple
`(pos, "start"/"end", i, comment_text/None)`. -/
structure TagPos where
  pos : Int
  tag_is_end : Bool
  idx : Nat
  data : Option (List Char)
deriving DecidableEq, Repr

/-- The sort key's second component: `0 if x[1] == "end" else 1`. -/
def tagRank (t : TagPos) : Nat := if t.tag_is_end then 0 else 1

/-- The comparison underlying `positions.sort(key=lambda x: (x[0], 0 if
x[1] == "end" else 1))`. -/
def tagLE (a b : TagPos) : Bool :=
  decide (a.pos < b.pos ∨ (a.pos = b.pos ∧ tagRank a ≤ tagRank b))

/-- Clamp a Python slice index to `[0, len]`, resolving negative indices
from the end as Python does. -/
def pyIdx (len : Nat) (i : Int) : Nat :=
  if i < 0 then (i + len).toNat else min i.toNat len

/-- Python slice `l[a:b]` for `int` bounds. -/
def pySliceI (l : List Char) (a b : Int) : List Char :=
  (l.take (pyIdx l.length b)).drop (pyIdx l.length a)

/-- The literal before the id in a start tag: `<comment-start id="`. -/
def xmlStartPre : List Char := "<comment-start id=".data ++ [quoteChar]

/-- The literal between the id and the data in a start tag, without its
leading quote: ` data="`. -/
def xmlDataTail : List Char := " data=".data ++ [quoteChar]

/-- The literal before the id in an end tag: `<comment-end id="`. -/
def xmlEndPre : List Char := "<comment-end id=".data ++ [quoteChar]

/-- The tag terminator `/>`. -/
def xmlSlashClose : List Char := "/>".data

/-- `f\'<comment-start id="-;i-;" data="-;esc-;"/>\'`. -/
def xmlStartTag (i : Nat) (data : Option (List Char)) : List Char :=
  xmlStartPre ++ natToStr i ++ (quoteChar :: xmlDataTail) ++ escape_xml data ++
    (quoteChar :: xmlSlashClose)

/-- `f\'<comment-end id="-;i-;"/>\'`. -/
def xmlEndTag (i : Nat) : List Char :=
  xmlEndPre ++ natToStr i ++ (quoteChar :: xmlSlashClose)

/-- The tag inserted for one positions entry. -/
def xmlTagOf (t : TagPos) : List Char :=
  if t.tag_is_end then xmlEndTag t.idx else xmlStartTag t.idx t.data

/-- The marker-insertion loop of `XmlFormatter.format` (lines 36-55):
append `essay_text[current_pos:pos]`, then the tag, set `current_pos =
pos`; finally append `essay_text[current_pos:]`. -/
def xmlBuild (text : List Char) (cur : Int) : List TagPos → List Char
  | [] => text.drop (pyIdx text.length cur)
  | t :: rest => pySliceI text cur t.pos ++ xmlTagOf t ++ xmlBuild text t.pos rest

/-- `XmlFormatter.format` (`xml_formatter.py` lines 15-56). -/
def xmlFormat (essay_text : List Char) (comments : List CommentDict) : List Char :=
  if essay_text.isEmpty || comments.isEmpty then []
  else
    let positions := comments.enum.flatMap fun p =>
      [{ pos := p.2.start, tag_is_end := false, idx := p.1, data := some p.2.comment_text },
       { pos := p.2.end_, tag_is_end := true, idx := p.1, data := none }]
    xmlBuild essay_text 0 (positions.mergeSort tagLE)

/-- The `positions` list assembled by `XmlFormatter.format` (lines 23-34)
before sorting: for the `i`-th comment, `(start, "start", i, comment_text)`
then `(end, "end", i, None)`. -/
def tagEntries (comments : List CommentDict) : List TagPos :=
  comments.enum.flatMap fun p =>
    [{ pos := p.2.start, tag_is_end := false, idx := p.1, data := some p.2.comment_text },
     { pos := p.2.end_, tag_is_end := true, idx := p.1, data := none }]

/-- `HtmlFormatter._process_text`: newline to `<br><br>`. -/
def process_text (t : List Char) : List Char :=
  pyReplaceChar t (Char.ofNat 10) ("<br><br>".data)

def htmlTemplate : List Char := String.data (String.intercalate "\n" [
  "",
  "        <html>",
  "        <head>",
  "        <style>",
  "            body \x7b ",
  "                font-family: Arial, sans-serif;",
  "                line-height: 1.6;",
  "                max-width: 800px;",
  "                margin: 200px auto;",
  "                padding: 0 20px;",
  "            \x7d",
  "            .highlighted \x7b",
  "                background-color: #fff3cd;",
  "                position: relative;",
  "                cursor: pointer;",
  "                display: inline-block;",
  "                white-space: pre-wrap;",
  "            \x7d",
  "            .tooltip \x7b",
  "                visibility: hidden;",
  "                background-color: #333;",
  "                color: white;",
  "                text-align: left;",
  "                padding: 8px;",
  "                border-radius: 4px;",
  "                position: absolute;",
  "                z-index: 1;",
  "                width: 200px;",
  "                font-size: 14px;",
  "                bottom: 100%;",
  "                left: 50%;",
  "                transform: translateX(-50%);",
  "                margin-bottom: 5px;",
  "            \x7d",
  "            .highlighted:hover .tooltip \x7b",
  "                visibility: visible;",
  "            \x7d",
  "            .tooltip::after \x7b",
  "                content: \"\";",
  "                position: absolute;",
  "                top: 100%;",
  "                left: 50%;",
  "                margin-left: -5px;",
  "                border-width: 5px;",
  "                border-style: solid;",
  "                border-color: #333 transparent transparent transparent;",
  "            \x7d",
  "        </style>",
  "        </head>",
  "        <body>",
  "        "])

/-- The comparison underlying `sorted(json_data["comments"], key=lambda
x: x["start"])`. -/
def htmlLE (a b : CommentDict) : Bool := decide (a.start ≤ b.start)

/-- The comment loop of `HtmlFormatter._generate_html`. -/
def htmlBody (text : List Char) (cur : Int) : List CommentDict → List Char
  | [] => process_text (text.drop (pyIdx text.length cur))
  | c :: rest =>
    process_text (pySliceI text cur c.start) ++
    "<span class=".data ++ [quoteChar] ++ "highlighted".data ++ [quoteChar] ++ ">".data ++
    process_text (pySliceI text c.start c.end_) ++
    "<span class=".data ++ [quoteChar] ++ "tooltip".data ++ [quoteChar] ++ ">".data ++
    process_text c.comment_text ++ "</span></span>".data ++
    htmlBody text c.end_ rest

/-- `HtmlFormatter.format` (`html_formatter.py` lines 8-41): sort by start,
return `""` when the text or the comment list is falsy, else template ++
spliced body ++ closing tags. -/
def htmlFormat (essay_text : List Char) (comments : List CommentDict) : List Char :=
  let sorted := comments.mergeSort htmlLE
  if essay_text.isEmpty || sorted.isEmpty then []
  else htmlTemplate ++ htmlBody essay_text 0 sorted ++ "\n</body>\n</html>".data

/-! ### Re-parsing of the inline-marker output (modelled from the spec) -/

/-- A tag recovered by re-parsing: open/close, the id text, the offset in
plain characters before it, and the unescaped data. -/
structure ScanTag where
  is_close : Bool
  idStr : List Char
  off : Nat
  data : List Char
deriving DecidableEq, Repr

/-- Strip a literal prefix. -/
def dropPre (pat s : List Char) : Option (List Char) :=
  if pat.isPrefixOf s then some (s.drop pat.length) else none

/-- Read characters up to (and consuming) the next double quote. -/
def readUntilQuote : List Char → Option (List Char × List Char)
  | [] => none
  | c :: rest =>
    if c = quoteChar then some ([], rest)
    else (readUntilQuote rest).map fun p => (c :: p.1, p.2)

/-- The entity tail (after a `&`) one of the five escapes produces, with
the character it decodes to and the remaining input. -/
def entityOf (rest : List Char) : Option (Char × List Char) :=
  match dropPre ("amp;".data) rest with
  | some r => some ('&', r)
  | none =>
    match dropPre ("lt;".data) rest with
    | some r => some ('<', r)
    | none =>
      match dropPre ("gt;".data) rest with
      | some r => some ('>', r)
      | none =>
        match dropPre ("quot;".data) rest with
        | some r => some (quoteChar, r)
        | none =>
          match dropPre ("apos;".data) rest with
          | some r => some (apostChar, r)
          | none => none

/-- Modelled from the spec: the inverse of the body-text escaping used when
re-parsing a `data` attribute. -/
def unescapeXml : List Char → List Char
  | [] => []
  | c :: rest =>
    if c = '&' then
      match entityOf rest with
      | some (ch, r) =>
        if h : r.length < rest.length + 1 then ch :: unescapeXml r else []
      | none => c :: unescapeXml rest
    else c :: unescapeXml rest
termination_by s => s.length
decreasing_by
  · simpa using h
  · simp
  · simp

/-- Modelled from the spec: parse one start or end marker at the head of
the string; yields the tag and the remaining input. -/
def parseAnyTag (s : List Char) : Option (Bool × List Char × List Char × List Char) :=
  match dropPre xmlStartPre s with
  | some r1 =>
    match readUntilQuote r1 with
    | none => none
    | some (idStr, r2) =>
      match dropPre xmlDataTail r2 with
      | none => none
      | some r3 =>
        match readUntilQuote r3 with
        | none => none
        | some (dataRaw, r4) =>
          match dropPre xmlSlashClose r4 with
          | none => none
          | some r5 => some (false, idStr, unescapeXml dataRaw, r5)
  | none =>
    match dropPre xmlEndPre s with
    | none => none
    | some r1 =>
      match readUntilQuote r1 with
      | none => none
      | some (idStr, r2) =>
        match dropPre xmlSlashClose r2 with
        | none => none
        | some r3 => some (true, idStr, [], r3)

/-- Modelled from the spec (§8 round-trip property, C8): re-parse the
start/end-tagged spans of the serializer output, tracking the offset in
plain (non-marker) characters. The fuel argument is an upper bound on the
number of steps; `scanTags` supplies enough. -/
def scanTagsF : Nat → List Char → Nat → List ScanTag
  | 0, _, _ => []
  | fuel + 1, s, off =>
    match parseAnyTag s with
    | some (b, idStr, data, remaining) =>
      { is_close := b, idStr := idStr, off := off, data := data }
        :: scanTagsF fuel remaining off
    | none =>
      match s with
      | [] => []
      | _ :: rest => scanTagsF fuel rest (off + 1)

/-- The re-parser at adequate fuel. -/
def scanTags (s : List Char) (off : Nat) : List ScanTag :=
  scanTagsF (s.length + 1) s off

/-- The per-character escaping `escape_xml` amounts to. -/
def escChar (c : Char) : List Char :=
  if c = '&' then "&amp;".data
  else if c = '<' then "&lt;".data
  else if c = '>' then "&gt;".data
  else if c = quoteChar then "&quot;".data
  else if c = apostChar then "&apos;".data
  else [c]

/-! ## Lemmas and theorems -/

/-! ### Properties of the string search -/

lemma findIn_spec (needle : List Char) :
    ∀ (rest : List Char) (i : Nat), 0 ≤ findIn needle rest i →
      ∃ j : Nat, findIn needle rest i = (j : Int) ∧ i ≤ j ∧
        j - i + needle.length ≤ rest.length := by
  intro rest
  induction rest with
  | nil =>
    intro i h
    by_cases hp : needle.isPrefixOf ([] : List Char)
    · refine ⟨i, by simp [findIn, hp], le_refl i, ?_⟩
      have hle := (List.isPrefixOf_iff_prefix.mp hp).length_le
      simpa using hle
    · simp [findIn, hp] at h
  | cons c t ih =>
    intro i h
    by_cases hp : needle.isPrefixOf (c :: t)
    · refine ⟨i, by simp [findIn, hp], le_refl i, ?_⟩
      have hle := (List.isPrefixOf_iff_prefix.mp hp).length_le
      simp only [List.length_cons] at hle ⊢
      omega
    · have h' : 0 ≤ findIn needle t (i + 1) := by simpa [findIn, hp] using h
      obtain ⟨j, hj, hij, hlen⟩ := ih (i + 1) h'
      refine ⟨j, by simp [findIn, hp, hj], by omega, ?_⟩
      simp only [List.length_cons]
      omega

lemma pyFind_spec (hay needle : List Char) (start : Nat) (h : 0 ≤ pyFind hay needle start) :
    ∃ j : Nat, pyFind hay needle start = (j : Int) ∧ start ≤ j ∧
      j + needle.length ≤ hay.length := by
  unfold pyFind at h ⊢
  split at h
  · next hle =>
    obtain ⟨j, hj, hij, hlen⟩ := findIn_spec needle (hay.drop start) start h
    rw [List.length_drop] at hlen
    exact ⟨j, by rw [if_pos hle, hj], hij, by omega⟩
  · exact absurd h (by norm_num)

lemma resolve_start_le (text : List Char) (st : Option (List Char)) :
    resolve_start text st ≤ text.length := by
  cases st with
  | none => simp [resolve_start]
  | some tok =>
    simp only [resolve_start]
    split
    · simp
    · next h =>
      have h0 : 0 ≤ pyFind text tok 0 := by omega
      obtain ⟨j, hj, _, hlen⟩ := pyFind_spec text tok 0 h0
      rw [hj]
      simpa using hlen

lemma resolve_end_bounds (text : List Char) (et : Option (List Char)) (si : Nat)
    (hsi : si ≤ text.length) :
    si ≤ resolve_end text et si ∧ resolve_end text et si ≤ text.length := by
  cases et with
  | none => simp [resolve_end, hsi]
  | some tok =>
    simp only [resolve_end]
    split
    · simp [hsi]
    · next h =>
      have h0 : 0 ≤ pyFind text tok si := by omega
      obtain ⟨j, hj, hij, hlen⟩ := pyFind_spec text tok si h0
      rw [hj]
      simp only [Int.toNat_natCast]
      omega

/-! ## Properties of the trimming -/

lemma lstrip_spec (l : List Char) :
    (pyLstrip l).length ≤ l.length ∧
      pyLstrip l = l.drop (l.length - (pyLstrip l).length) := by
  have h := List.takeWhile_append_dropWhile (p := pyIsSpace) (l := l)
  have hlen : (l.takeWhile pyIsSpace).length + (l.dropWhile pyIsSpace).length = l.length := by
    rw [← List.length_append, h]
  constructor
  · unfold pyLstrip; omega
  · have hdrop := List.drop_left (l.takeWhile pyIsSpace) (l.dropWhile pyIsSpace)
    rw [h] at hdrop
    unfold pyLstrip
    rw [show l.length - (l.dropWhile pyIsSpace).length = (l.takeWhile pyIsSpace).length by omega]
    exact hdrop.symm

lemma rstrip_spec (l : List Char) :
    (pyRstrip l).length ≤ l.length ∧ pyRstrip l = l.take (pyRstrip l).length := by
  have h : (l.reverse.dropWhile pyIsSpace).reverse ++ (l.reverse.takeWhile pyIsSpace).reverse
      = l := by
    rw [← List.reverse_append, List.takeWhile_append_dropWhile, List.reverse_reverse]
  constructor
  · have hlen := congrArg List.length h
    simp only [List.length_append, List.length_reverse] at hlen
    unfold pyRstrip
    simp only [List.length_reverse]
    omega
  · have htake := List.take_left ((l.reverse.dropWhile pyIsSpace).reverse)
      ((l.reverse.takeWhile pyIsSpace).reverse)
    rw [h] at htake
    unfold pyRstrip
    exact htake.symm

/-! ### Boundary-Section Locator -/

/-- Shared workhorse: the bounds and slice characterization of the section
returned by `extract_text_between_tokens`. -/
lemma extract_section_spec (text : List Char) (st et : Option (List Char)) :
    ∃ a b : Nat,
      (extract_text_between_tokens text st et).start = (a : Int) ∧
      (extract_text_between_tokens text st et).end_ = (b : Int) ∧
      a ≤ b ∧ b ≤ text.length ∧
      (extract_text_between_tokens text st et).stripped_text
        = (text.drop a).take (b - a) ∧
      (extract_text_between_tokens text st et).stripped_text
        = pyRstrip (pyLstrip (extract_text_between_tokens text st et).raw_text) := by
  have hsi : resolve_start text st ≤ text.length := resolve_start_le text st
  obtain ⟨hei1, hei2⟩ := resolve_end_bounds text et (resolve_start text st) hsi
  set si := resolve_start text st with hsidef
  set ei := resolve_end text et si with heidef
  set raw := pySliceN text si ei with hrawdef
  have hraw_eq : raw = (text.drop si).take (ei - si) := by
    rw [hrawdef]
    unfold pySliceN
    rw [List.drop_take]
  have hraw_len : raw.length = ei - si := by
    rw [hraw_eq]
    simp only [List.length_take, List.length_drop]
    omega
  obtain ⟨hl1, hl2⟩ := lstrip_spec raw
  obtain ⟨hr1, hr2⟩ := rstrip_spec (pyLstrip raw)
  set lstr := pyLstrip raw with hlstrdef
  set strp := pyRstrip lstr with hstrpdef
  set lead := raw.length - lstr.length with hleaddef
  set trail := lstr.length - strp.length with htraildef
  refine ⟨si + lead, ei - trail, ?_, ?_, ?_, ?_, ?_, ?_⟩
  · rfl
  · show (ei : Int) - (trail : Int) = ((ei - trail : Nat) : Int)
    omega
  · omega
  · omega
  · show strp = (text.drop (si + lead)).take (ei - trail - (si + lead))
    have e1 : lstr = (text.drop (si + lead)).take (ei - si - lead) := by
      rw [hl2, hraw_eq, List.drop_take, List.drop_drop]
    have e2 : strp = (text.drop (si + lead)).take strp.length := by
      conv_lhs => rw [hr2]
      rw [e1, List.take_take]
      congr 1
      omega
    rw [e2]
    congr 1
    omega
  · rfl

/-- C9: for every text and every combination of present/absent/found/not-found
start and end tokens, the `Section` returned by `extract_text_between_tokens`
satisfies `0 ≤ start ≤ end ≤ len(text)`, and its `stripped_text` equals both
`text[start:end]` and `raw_text` with leading and trailing whitespace
removed. -/
theorem section_invariants :
    ∀ (text : List Char) (st et : Option (List Char)),
      ∃ a b : Nat,
        (extract_text_between_tokens text st et).start = (a : Int) ∧
        (extract_text_between_tokens text st et).end_ = (b : Int) ∧
        a ≤ b ∧ b ≤ text.length ∧
        (extract_text_between_tokens text st et).stripped_text
          = (text.drop a).take (b - a) ∧
        (extract_text_between_tokens text st et).stripped_text
          = pyRstrip (pyLstrip (extract_text_between_tokens text st et).raw_text) :=
  extract_section_spec

/-- C3: the Boundary-Section Locator resolves the section start to index 0
when the start token is absent or not found, resolves the section end to
`len(text)` when the end token is absent or not found at or after the
resolved start, never fails, and on `"A <!-- essay text"` with start token
`"<!--"` (end token `"-->"` not found, or no end token) yields stripped
text `"essay text"`. -/
theorem boundary_locator_fallbacks :
    (∀ text : List Char, resolve_start text none = 0) ∧
    (∀ text tok : List Char, pyFind text tok 0 < 0 → resolve_start text (some tok) = 0) ∧
    (∀ (text : List Char) (si : Nat), resolve_end text none si = text.length) ∧
    (∀ (text tok : List Char) (si : Nat),
      pyFind text tok si < 0 → resolve_end text (some tok) si = text.length) ∧
    (extract_text_between_tokens "A <!-- essay text".toList
        (some "<!--".toList) (some "-->".toList)).stripped_text = "essay text".toList ∧
    (extract_text_between_tokens "A <!-- essay text".toList
        (some "<!--".toList) none).stripped_text = "essay text".toList := by
  refine ⟨fun _ => rfl, ?_, fun _ _ => rfl, ?_, by decide, by decide⟩
  · intro text tok h
    simp [resolve_start, h]
  · intro text tok si h
    simp [resolve_end, h]

/-! ### HighlightRange sentinel (C7) -/

/-! ### Tree-walk helper lemmas -/

lemma push_get_text (hr : HighlightRange) (t : List Char) :
    (hr.push t).get_text = hr.get_text ++ t := by
  simp [HighlightRange.push, HighlightRange.get_text]

lemma pyRemove_eq_none (l : List String) (a : String) (h : a ∉ l) : pyRemove l a = none := by
  induction l with
  | nil => rfl
  | cons x rest ih =>
    have hx : ¬(x = a) := fun he => h (by simp [he])
    have hr : a ∉ rest := fun hm => h (List.mem_cons_of_mem _ hm)
    simp [pyRemove, hx, ih hr]

lemma pyRemove_eq_erase (l : List String) (a : String) (h : a ∈ l) :
    pyRemove l a = some (l.erase a) := by
  induction l with
  | nil => cases h
  | cons x rest ih =>
    by_cases hx : x = a
    · subst hx
      simp [pyRemove, List.erase_cons_head]
    · have ha : a ∈ rest := by
        rcases List.mem_cons.mp h with h1 | h1
        · exact absurd h1.symm hx
        · exact h1
      have hbeq : ¬(x == a) := by simpa using hx
      simp [pyRemove, hx, ih ha, List.erase_cons_tail, hbeq]

lemma pyRemove_spec (a : String) : ∀ l l' : List String, pyRemove l a = some l' →
    l'.count a + 1 = l.count a ∧ (∀ b, b ≠ a → l'.count b = l.count b) ∧
    ∀ x ∈ l', x ∈ l := by
  intro l
  induction l with
  | nil => intro l' h; simp [pyRemove] at h
  | cons x rest ih =>
    intro l' h
    by_cases hx : x = a
    · subst hx
      have h' : rest = l' := by simpa [pyRemove] using h
      subst h'
      refine ⟨by simp, fun b hb => ?_, fun y hy => List.mem_cons_of_mem _ hy⟩
      have hbeq : (x == b) = false := beq_eq_false_iff_ne.mpr (Ne.symm hb)
      simp [List.count_cons, hbeq]
    · simp only [pyRemove, if_neg hx, Option.map_eq_some'] at h
      obtain ⟨l'', h1, h2⟩ := h
      subst h2
      obtain ⟨c1, c2, c3⟩ := ih l'' h1
      refine ⟨?_, fun b hb => ?_, fun y hy => ?_⟩
      · have hbeq : (x == a) = false := beq_eq_false_iff_ne.mpr hx
        simp [List.count_cons, hbeq]
        omega
      · by_cases hbx : b = x
        · subst hbx
          simp [List.count_cons, c2 b hb]
        · have hbeq : (x == b) = false := beq_eq_false_iff_ne.mpr (Ne.symm hbx)
          simp [List.count_cons, hbeq, c2 b hb]
      · rcases List.mem_cons.mp hy with h3 | h3
        · simp [h3]
        · exact List.mem_cons_of_mem _ (c3 y h3)

lemma appendAll_isSome : ∀ (ids : List String) (m : String → Option HighlightRange)
    (t : List Char), (∀ id ∈ ids, (m id).isSome) → (appendAll ids m t).isSome := by
  intro ids
  induction ids with
  | nil => intro m t _; simp [appendAll]
  | cons a rest ih =>
    intro m t h
    obtain ⟨hra, hmeq⟩ := Option.isSome_iff_exists.mp (h a (by simp))
    simp only [appendAll, hmeq]
    apply ih
    intro id hid
    by_cases hk : id = a
    · subst hk; simp [updateMap]
    · simp only [updateMap, if_neg hk]
      exact h id (List.mem_cons_of_mem _ hid)

lemma appendAll_props : ∀ (ids : List String) (m : String → Option HighlightRange)
    (t : List Char) (m' : String → Option HighlightRange), appendAll ids m t = some m' →
    (∀ k, (m' k).isSome ↔ (m k).isSome) ∧
    (∀ k, k ∉ ids → m' k = m k) ∧
    (∀ k hr, ids.count k = 1 → m k = some hr → m' k = some (hr.push t)) := by
  intro ids
  induction ids with
  | nil =>
    intro m t m' h
    simp only [appendAll, Option.some.injEq] at h
    subst h
    exact ⟨fun _ => Iff.rfl, fun _ _ => rfl, fun k hr hc => by simp at hc⟩
  | cons a rest ih =>
    intro m t m' h
    cases hma : m a with
    | none => simp [appendAll, hma] at h
    | some hra =>
      simp only [appendAll, hma] at h
      obtain ⟨i1, i2, i3⟩ := ih (updateMap m a (hra.push t)) t m' h
      refine ⟨fun k => ?_, fun k hk => ?_, fun k hr hc hmk => ?_⟩
      · rw [i1 k]
        by_cases hk : k = a
        · subst hk; simp [updateMap, hma]
        · simp [updateMap, hk]
      · have hk1 : k ≠ a := fun he => hk (by simp [he])
        have hk2 : k ∉ rest := fun hm => hk (List.mem_cons_of_mem _ hm)
        rw [i2 k hk2]
        simp [updateMap, hk1]
      · by_cases hk : k = a
        · subst hk
          have h0 : rest.count k = 0 := by
            rw [List.count_cons_self] at hc
            omega
          have hk2 : k ∉ rest := List.count_eq_zero.mp h0
          rw [i2 k hk2]
          rw [hmk] at hma
          injection hma with hma
          simp [updateMap, hma]
        · have hbeq : (a == k) = false := beq_eq_false_iff_ne.mpr fun he => hk he.symm
          have hc' : rest.count k = 1 := by
            rw [List.count_cons, hbeq] at hc
            simpa using hc
          apply i3 k hr hc'
          simp [updateMap, hk, hmk]

lemma wStep_avoid (s s' : WalkState) (e : DocNode) (X : String)
    (h : wStep s e = some s')
    (h1 : e ≠ DocNode.rangeStart X) (h2 : e ≠ DocNode.rangeEnd X) :
    ∃ d, s'.full_text = s.full_text ++ d ∧
      s'.current_range_ids.count X = s.current_range_ids.count X ∧
      (X ∉ s.current_range_ids → s'.ranges X = s.ranges X) ∧
      (s.current_range_ids.count X = 1 → ∀ hr, s.ranges X = some hr →
        ∃ hr', s'.ranges X = some hr' ∧ hr'.comment_id = hr.comment_id ∧
          hr'.absolute_start = hr.absolute_start ∧ hr'.section_start = hr.section_start ∧
          hr'.get_text = hr.get_text ++ d) := by
  cases e with
  | rangeStart b =>
    have hbX : b ≠ X := fun he => h1 (by rw [he])
    simp only [wStep, Option.some.injEq] at h
    subst h
    refine ⟨[], by simp, ?_, ?_, ?_⟩
    · have hb0 : List.count X [b] = 0 := by
        simp [List.count_cons, beq_eq_false_iff_ne.mpr hbX]
      simp [List.count_append, hb0]
    · intro _
      simp [updateMap, Ne.symm hbX]
    · intro _ hr hmr
      refine ⟨hr, ?_, rfl, rfl, rfl, by simp⟩
      simp [updateMap, Ne.symm hbX]
      exact hmr
  | rangeEnd b =>
    have hbX : b ≠ X := fun he => h2 (by rw [he])
    simp only [wStep] at h
    split at h
    · cases hrem : pyRemove s.current_range_ids b with
      | none => rw [hrem] at h; cases h
      | some l =>
        rw [hrem] at h
        simp only [Option.some.injEq] at h
        subst h
        obtain ⟨_, c2, _⟩ := pyRemove_spec b _ l hrem
        refine ⟨[], by simp, c2 X (Ne.symm hbX), fun _ => rfl, ?_⟩
        intro _ hr hmr
        exact ⟨hr, hmr, rfl, rfl, rfl, by simp⟩
    · simp only [Option.some.injEq] at h
      subst h
      exact ⟨[], by simp, rfl, fun _ => rfl, fun _ hr hmr => ⟨hr, hmr, rfl, rfl, rfl, by simp⟩⟩
  | textRun t =>
    simp only [wStep] at h
    split at h
    · simp only [Option.some.injEq] at h
      subst h
      exact ⟨[], by simp, rfl, fun _ => rfl, fun _ hr hmr => ⟨hr, hmr, rfl, rfl, rfl, by simp⟩⟩
    · cases hap : appendAll s.current_range_ids s.ranges t with
      | none => rw [hap] at h; cases h
      | some m =>
        rw [hap] at h
        simp only [Option.some.injEq] at h
        subst h
        obtain ⟨i1, i2, i3⟩ := appendAll_props _ _ _ _ hap
        exact ⟨t, rfl, rfl, fun hX => i2 X hX, fun hc hr hmr =>
          ⟨hr.push t, i3 X hr hc hmr, rfl, rfl, rfl, push_get_text hr t⟩⟩
  | paragraph =>
    simp only [wStep] at h
    split at h
    · simp only [Option.some.injEq] at h
      subst h
      exact ⟨[], by simp, rfl, fun _ => rfl, fun _ hr hmr => ⟨hr, hmr, rfl, rfl, rfl, by simp⟩⟩
    · cases hap : appendAll s.current_range_ids s.ranges newLine with
      | none => rw [hap] at h; cases h
      | some m =>
        rw [hap] at h
        simp only [Option.some.injEq] at h
        subst h
        obtain ⟨i1, i2, i3⟩ := appendAll_props _ _ _ _ hap
        exact ⟨newLine, rfl, rfl, fun hX => i2 X hX, fun hc hr hmr =>
          ⟨hr.push newLine, i3 X hr hc hmr, rfl, rfl, rfl, push_get_text hr newLine⟩⟩
  | lineBreak =>
    simp only [wStep] at h
    cases hap : appendAll s.current_range_ids s.ranges newLine with
    | none => rw [hap] at h; cases h
    | some m =>
      rw [hap] at h
      simp only [Option.some.injEq] at h
      subst h
      obtain ⟨i1, i2, i3⟩ := appendAll_props _ _ _ _ hap
      exact ⟨newLine, rfl, rfl, fun hX => i2 X hX, fun hc hr hmr =>
        ⟨hr.push newLine, i3 X hr hc hmr, rfl, rfl, rfl, push_get_text hr newLine⟩⟩
  | other =>
    simp only [wStep, Option.some.injEq] at h
    subst h
    exact ⟨[], by simp, rfl, fun _ => rfl, fun _ hr hmr => ⟨hr, hmr, rfl, rfl, rfl, by simp⟩⟩

lemma walkAux_append : ∀ (l1 l2 : List DocNode) (s : WalkState),
    walkAux s (l1 ++ l2) =
      match walkAux s l1 with
      | none => none
      | some s1 => walkAux s1 l2 := by
  intro l1
  induction l1 with
  | nil => intro l2 s; simp [walkAux]
  | cons e rest ih =>
    intro l2 s
    simp only [List.cons_append, walkAux]
    cases wStep s e with
    | none => rfl
    | some s1 => exact ih l2 s1

lemma walkAux_append_isSome (l1 l2 : List DocNode) (s : WalkState)
    (h : (walkAux s (l1 ++ l2)).isSome) :
    ∃ s1, walkAux s l1 = some s1 ∧ (walkAux s1 l2).isSome := by
  rw [walkAux_append] at h
  cases h1 : walkAux s l1 with
  | none => rw [h1] at h; simp at h
  | some s1 =>
    rw [h1] at h
    exact ⟨s1, rfl, by simpa using h⟩

lemma walk_avoid (X : String) : ∀ (evs : List DocNode) (s s' : WalkState),
    walkAux s evs = some s' →
    (∀ e ∈ evs, e ≠ DocNode.rangeStart X ∧ e ≠ DocNode.rangeEnd X) →
    ∃ d, s'.full_text = s.full_text ++ d ∧
      s'.current_range_ids.count X = s.current_range_ids.count X ∧
      (X ∉ s.current_range_ids → s'.ranges X = s.ranges X) ∧
      (s.current_range_ids.count X = 1 → ∀ hr, s.ranges X = some hr →
        ∃ hr', s'.ranges X = some hr' ∧ hr'.comment_id = hr.comment_id ∧
          hr'.absolute_start = hr.absolute_start ∧ hr'.section_start = hr.section_start ∧
          hr'.get_text = hr.get_text ++ d) := by
  intro evs
  induction evs with
  | nil =>
    intro s s' h _
    simp only [walkAux, Option.some.injEq] at h
    subst h
    exact ⟨[], by simp, rfl, fun _ => rfl, fun _ hr hmr => ⟨hr, hmr, rfl, rfl, rfl, by simp⟩⟩
  | cons e rest ih =>
    intro s s' h havoid
    cases hstep : wStep s e with
    | none => simp [walkAux, hstep] at h
    | some s1 =>
      have h' : walkAux s1 rest = some s' := by
        simpa [walkAux, hstep] using h
      obtain ⟨d1, hf1, hc1, hn1, ho1⟩ :=
        wStep_avoid s s1 e X hstep (havoid e (by simp)).1 (havoid e (by simp)).2
      obtain ⟨d2, hf2, hc2, hn2, ho2⟩ :=
        ih s1 s' h' (fun e' he' => havoid e' (List.mem_cons_of_mem _ he'))
      refine ⟨d1 ++ d2, by rw [hf2, hf1, List.append_assoc], by rw [hc2, hc1], ?_, ?_⟩
      · intro hX
        have hX1 : X ∉ s1.current_range_ids := by
          rw [← List.count_eq_zero, hc1]
          exact List.count_eq_zero.mpr hX
        rw [hn2 hX1, hn1 hX]
      · intro hcnt hr hmr
        obtain ⟨hr1, hm1, e1, e2, e3, e4⟩ := ho1 hcnt hr hmr
        have hcnt1 : s1.current_range_ids.count X = 1 := by rw [hc1]; exact hcnt
        obtain ⟨hr2, hm2, f1, f2, f3, f4⟩ := ho2 hcnt1 hr1 hm1
        exact ⟨hr2, hm2, by rw [f1, e1], by rw [f2, e2], by rw [f3, e3],
          by rw [f4, e4, List.append_assoc]⟩

/-- C1: during a single tree walk, every open range receives an identical
copy of every fragment appended to the flattened text while it is open.
For overlapping ranges A (opens, then B opens, then A closes, then B
closes), A's accumulated text is exactly the flattened-text delta from A's
open to A's close, B's is exactly the delta from B's open to B's close,
and both contain the shared middle delta. -/
theorem overlap_ranges_share_fragments
    (pre m1 m2 m3 : List DocNode) (A B : String) (s0 : WalkState)
    (hpre : walkAux initState pre = some s0)
    (hAB : A ≠ B)
    (hA0 : A ∉ s0.current_range_ids) (hB0 : B ∉ s0.current_range_ids)
    (hm : ∀ e ∈ m1 ++ m2 ++ m3,
      e ≠ DocNode.rangeStart A ∧ e ≠ DocNode.rangeEnd A ∧
      e ≠ DocNode.rangeStart B ∧ e ≠ DocNode.rangeEnd B)
    (hrun : (walkAux s0 ((DocNode.rangeStart A :: m1) ++
      ((DocNode.rangeStart B :: m2) ++
        ((DocNode.rangeEnd A :: m3) ++ [DocNode.rangeEnd B])))).isSome) :
    ∃ u1 u2 u3 fin hrA hrB,
      walkAux s0 (DocNode.rangeStart A :: m1) = some u1 ∧
      walkAux u1 (DocNode.rangeStart B :: m2) = some u2 ∧
      walkAux u2 (DocNode.rangeEnd A :: m3) = some u3 ∧
      walkAux u3 [DocNode.rangeEnd B] = some fin ∧
      fin.ranges A = some hrA ∧ fin.ranges B = some hrB ∧
      hrA.get_text = (u1.full_text.drop s0.full_text.length) ++
        (u2.full_text.drop u1.full_text.length) ∧
      hrB.get_text = (u2.full_text.drop u1.full_text.length) ++
        (u3.full_text.drop u2.full_text.length) := by
  have hm1 : ∀ e ∈ m1, e ≠ DocNode.rangeStart A ∧ e ≠ DocNode.rangeEnd A ∧
      e ≠ DocNode.rangeStart B ∧ e ≠ DocNode.rangeEnd B := by
    intro e he; exact hm e (by simp [he])
  have hm2 : ∀ e ∈ m2, e ≠ DocNode.rangeStart A ∧ e ≠ DocNode.rangeEnd A ∧
      e ≠ DocNode.rangeStart B ∧ e ≠ DocNode.rangeEnd B := by
    intro e he; exact hm e (by simp [he])
  have hm3 : ∀ e ∈ m3, e ≠ DocNode.rangeStart A ∧ e ≠ DocNode.rangeEnd A ∧
      e ≠ DocNode.rangeStart B ∧ e ≠ DocNode.rangeEnd B := by
    intro e he; exact hm e (by simp [he])
  -- decompose the successful run into the four stages
  obtain ⟨u1, h1, hrun1⟩ := walkAux_append_isSome _ _ _ hrun
  obtain ⟨u2, h2, hrun2⟩ := walkAux_append_isSome _ _ _ hrun1
  obtain ⟨u3, h3, hrun3⟩ := walkAux_append_isSome _ _ _ hrun2
  obtain ⟨fin, h4⟩ := Option.isSome_iff_exists.mp hrun3
  -- stage 1: open A, then walk m1
  have h1' : walkAux
      { s0 with current_range_ids := s0.current_range_ids ++ [A]
                ranges := updateMap s0.ranges A
                  (mkHighlightRange A s0.full_text.length) } m1 = some u1 := by
    simpa [walkAux, wStep] using h1
  obtain ⟨dA1, hfA1, hcA1, _, hoA1⟩ := walk_avoid A m1 _ u1 h1'
    (fun e he => ⟨(hm1 e he).1, (hm1 e he).2.1⟩)
  obtain ⟨dB1, hfB1, hcB1, _, _⟩ := walk_avoid B m1 _ u1 h1'
    (fun e he => ⟨(hm1 e he).2.2.1, (hm1 e he).2.2.2⟩)
  simp only at hfA1 hcA1 hoA1 hfB1 hcB1
  have hcntA_sA : (s0.current_range_ids ++ [A]).count A = 1 := by
    rw [List.count_append, List.count_eq_zero.mpr hA0]
    simp
  have hcntB_sA : (s0.current_range_ids ++ [B]).count B = 1 := by
    rw [List.count_append, List.count_eq_zero.mpr hB0]
    simp
  have hcntB_sA0 : (s0.current_range_ids ++ [A]).count B = 0 := by
    rw [List.count_append, List.count_eq_zero.mpr hB0]
    simp [List.count_cons]
    exact hAB
  obtain ⟨hrA1, hmA1, _, _, _, hgA1⟩ := hoA1 hcntA_sA (mkHighlightRange A s0.full_text.length)
    (by simp [updateMap])
  have hcntA_u1 : u1.current_range_ids.count A = 1 := by rw [hcA1]; exact hcntA_sA
  have hcntB_u1 : u1.current_range_ids.count B = 0 := by rw [hcB1]; exact hcntB_sA0
  have hgA1' : hrA1.get_text = dA1 := by
    simpa [mkHighlightRange, HighlightRange.get_text] using hgA1
  -- stage 2: open B, then walk m2
  have h2' : walkAux
      { u1 with current_range_ids := u1.current_range_ids ++ [B]
                ranges := updateMap u1.ranges B
                  (mkHighlightRange B u1.full_text.length) } m2 = some u2 := by
    simpa [walkAux, wStep] using h2
  obtain ⟨dA2, hfA2, hcA2, _, hoA2⟩ := walk_avoid A m2 _ u2 h2'
    (fun e he => ⟨(hm2 e he).1, (hm2 e he).2.1⟩)
  obtain ⟨dB2, hfB2, hcB2, _, hoB2⟩ := walk_avoid B m2 _ u2 h2'
    (fun e he => ⟨(hm2 e he).2.2.1, (hm2 e he).2.2.2⟩)
  simp only at hfA2 hcA2 hoA2 hfB2 hcB2 hoB2
  have hdAB2 : dA2 = dB2 := List.append_cancel_left (hfA2 ▸ hfB2)
  have hcntA_sB : (u1.current_range_ids ++ [B]).count A = 1 := by
    rw [List.count_append, hcntA_u1]
    simp [List.count_cons]
    exact fun he => hAB he.symm
  have hcntB_sB : (u1.current_range_ids ++ [B]).count B = 1 := by
    rw [List.count_append, hcntB_u1]
    simp
  obtain ⟨hrA2, hmA2, _, _, _, hgA2⟩ := hoA2 hcntA_sB hrA1
    (by simp only [updateMap, if_neg hAB]; exact hmA1)
  obtain ⟨hrB2, hmB2, _, _, _, hgB2⟩ := hoB2 hcntB_sB (mkHighlightRange B u1.full_text.length)
    (by simp [updateMap])
  have hcntA_u2 : u2.current_range_ids.count A = 1 := by rw [hcA2]; exact hcntA_sB
  have hcntB_u2 : u2.current_range_ids.count B = 1 := by rw [hcB2]; exact hcntB_sB
  have hgB2' : hrB2.get_text = dA2 := by
    rw [hdAB2]
    simpa [mkHighlightRange, HighlightRange.get_text] using hgB2
  -- stage 3: close A, then walk m3
  have hAin : A ∈ u2.current_range_ids := List.count_pos_iff.mp (by omega)
  have hwsC : wStep u2 (DocNode.rangeEnd A) =
      some { u2 with current_range_ids := u2.current_range_ids.erase A } := by
    simp only [wStep, hmA2, Option.isSome_some, if_true]
    rw [pyRemove_eq_erase _ _ hAin]
  have h3' : walkAux { u2 with current_range_ids := u2.current_range_ids.erase A } m3
      = some u3 := by
    simpa [walkAux, hwsC] using h3
  obtain ⟨dA3, hfA3, hcA3, hnA3, _⟩ := walk_avoid A m3 _ u3 h3'
    (fun e he => ⟨(hm3 e he).1, (hm3 e he).2.1⟩)
  obtain ⟨dB3, hfB3, hcB3, _, hoB3⟩ := walk_avoid B m3 _ u3 h3'
    (fun e he => ⟨(hm3 e he).2.2.1, (hm3 e he).2.2.2⟩)
  simp only at hfA3 hcA3 hnA3 hfB3 hcB3 hoB3
  have hcntA_sC : (u2.current_range_ids.erase A).count A = 0 := by
    rw [List.count_erase_self, hcntA_u2]
  have hcntB_sC : (u2.current_range_ids.erase A).count B = 1 := by
    rw [List.count_erase_of_ne (Ne.symm hAB), hcntB_u2]
  have hmA3 : u3.ranges A = some hrA2 := by
    rw [hnA3 (List.count_eq_zero.mp hcntA_sC)]
    exact hmA2
  obtain ⟨hrB3, hmB3, _, _, _, hgB3⟩ := hoB3 hcntB_sC hrB2 hmB2
  have hcntB_u3 : u3.current_range_ids.count B = 1 := by rw [hcB3]; exact hcntB_sC
  -- stage 4: close B
  have hBin : B ∈ u3.current_range_ids := List.count_pos_iff.mp (by omega)
  have hwsD : wStep u3 (DocNode.rangeEnd B) =
      some { u3 with current_range_ids := u3.current_range_ids.erase B } := by
    simp only [wStep, hmB3, Option.isSome_some, if_true]
    rw [pyRemove_eq_erase _ _ hBin]
  have hfin : fin = { u3 with current_range_ids := u3.current_range_ids.erase B } := by
    have := h4
    simp only [walkAux, hwsD] at this
    exact (Option.some.injEq _ _ ▸ this).symm
  refine ⟨u1, u2, u3, fin, hrA2, hrB3, h1, h2, h3, h4, ?_, ?_, ?_, ?_⟩
  · rw [hfin]; exact hmA3
  · rw [hfin]; exact hmB3
  · rw [hgA2, hgA1']
    have e1 : u1.full_text.drop s0.full_text.length = dA1 := by
      rw [hfA1]; exact List.drop_left _ _
    have e2 : u2.full_text.drop u1.full_text.length = dA2 := by
      rw [hfA2]; exact List.drop_left _ _
    rw [e1, e2]
  · rw [hgB3, hgB2']
    have e2 : u2.full_text.drop u1.full_text.length = dA2 := by
      rw [hfA2]; exact List.drop_left _ _
    have e3 : u3.full_text.drop u2.full_text.length = dB3 := by
      rw [hfB3]; exact List.drop_left _ _
    rw [e2, e3]

/-- Witness for C1: a concrete document with two overlapping ranges
(`0` opens, `1` opens, `0` closes, `1` closes) around three text runs. -/
theorem overlap_ranges_share_fragments_witness :
    ∃ u1 u2 u3 fin hrA hrB,
      walkAux initState (DocNode.rangeStart "0" :: [DocNode.textRun ['a']]) = some u1 ∧
      walkAux u1 (DocNode.rangeStart "1" :: [DocNode.textRun ['b']]) = some u2 ∧
      walkAux u2 (DocNode.rangeEnd "0" :: [DocNode.textRun ['c']]) = some u3 ∧
      walkAux u3 [DocNode.rangeEnd "1"] = some fin ∧
      fin.ranges "0" = some hrA ∧ fin.ranges "1" = some hrB ∧
      hrA.get_text = (u1.full_text.drop initState.full_text.length) ++
        (u2.full_text.drop u1.full_text.length) ∧
      hrB.get_text = (u2.full_text.drop u1.full_text.length) ++
        (u3.full_text.drop u2.full_text.length) :=
  overlap_ranges_share_fragments [] [DocNode.textRun ['a']] [DocNode.textRun ['b']]
    [DocNode.textRun ['c']] "0" "1" initState rfl (by decide) (by decide) (by decide)
    (by decide) rfl

lemma mem_closesOf (id : String) : ∀ l : List DocNode,
    id ∈ closesOf l ↔ DocNode.rangeEnd id ∈ l := by
  intro l
  induction l with
  | nil => simp [closesOf]
  | cons e rest ih =>
    cases e with
    | rangeEnd b =>
      simp only [closesOf, List.filterMap_cons] at ih ⊢
      simp [ih]
    | rangeStart b =>
      simp only [closesOf, List.filterMap_cons] at ih ⊢
      simp [ih]
    | textRun t =>
      simp only [closesOf, List.filterMap_cons] at ih ⊢
      simp [ih]
    | paragraph =>
      simp only [closesOf, List.filterMap_cons] at ih ⊢
      simp [ih]
    | lineBreak =>
      simp only [closesOf, List.filterMap_cons] at ih ⊢
      simp [ih]
    | other =>
      simp only [closesOf, List.filterMap_cons] at ih ⊢
      simp [ih]

lemma walk_no_markers : ∀ (evs : List DocNode) (s : WalkState),
    s.current_range_ids = [] →
    (∀ e ∈ evs, isRangeMarker e = false) →
    ∃ s', walkAux s evs = some s' ∧
      s'.full_text = s.full_text ++ flattenSpec s.is_first_paragraph evs ∧
      s'.ranges = s.ranges ∧ s'.current_range_ids = [] := by
  intro evs
  induction evs with
  | nil =>
    intro s hcur _
    exact ⟨s, rfl, by simp [flattenSpec], rfl, hcur⟩
  | cons e rest ih =>
    intro s hcur hno
    have hrest : ∀ e' ∈ rest, isRangeMarker e' = false :=
      fun e' he' => hno e' (List.mem_cons_of_mem _ he')
    cases e with
    | rangeStart b =>
      exact absurd (hno (DocNode.rangeStart b) (by simp)) (by simp [isRangeMarker])
    | rangeEnd b =>
      exact absurd (hno (DocNode.rangeEnd b) (by simp)) (by simp [isRangeMarker])
    | textRun t =>
      by_cases ht : t.isEmpty
      · obtain ⟨s', h1, h2, h3, h4⟩ := ih s hcur hrest
        refine ⟨s', by simp [walkAux, wStep, ht]; exact h1, ?_, h3, h4⟩
        rw [h2]
        simp [flattenSpec, List.isEmpty_iff.mp ht]
      · have hstep : wStep s (.textRun t) = some { s with full_text := s.full_text ++ t } := by
          simp [wStep, ht, hcur, appendAll]
        obtain ⟨s', h1, h2, h3, h4⟩ := ih { s with full_text := s.full_text ++ t } hcur hrest
        refine ⟨s', by simp [walkAux, hstep]; exact h1, ?_, h3, h4⟩
        rw [h2]
        simp [flattenSpec, List.append_assoc]
    | paragraph =>
      by_cases hb : s.is_first_paragraph = true
      · have hstep : wStep s .paragraph = some { s with is_first_paragraph := false } := by
          simp [wStep, hb]
        obtain ⟨s', h1, h2, h3, h4⟩ := ih { s with is_first_paragraph := false } hcur hrest
        refine ⟨s', by simp [walkAux, hstep]; exact h1, ?_, h3, h4⟩
        rw [h2, hb]
        simp [flattenSpec]
      · have hb' : s.is_first_paragraph = false := by simpa using hb
        have hstep : wStep s .paragraph
            = some { s with full_text := s.full_text ++ newLine } := by
          simp [wStep, hb', hcur, appendAll]
        obtain ⟨s', h1, h2, h3, h4⟩ := ih { s with full_text := s.full_text ++ newLine } hcur hrest
        refine ⟨s', by simp [walkAux, hstep]; exact h1, ?_, h3, h4⟩
        rw [h2, hb']
        simp [flattenSpec, List.append_assoc]
    | lineBreak =>
      have hstep : wStep s .lineBreak
          = some { s with full_text := s.full_text ++ newLine } := by
        simp [wStep, hcur, appendAll]
      obtain ⟨s', h1, h2, h3, h4⟩ := ih { s with full_text := s.full_text ++ newLine } hcur hrest
      refine ⟨s', by simp [walkAux, hstep]; exact h1, ?_, h3, h4⟩
      rw [h2]
      simp [flattenSpec, List.append_assoc]
    | other =>
      obtain ⟨s', h1, h2, h3, h4⟩ := ih s hcur hrest
      refine ⟨s', by simp [walkAux, wStep]; exact h1, ?_, h3, h4⟩
      rw [h2]
      simp [flattenSpec]

/-- C4: for a document tree with no range-open/range-close markers, the walk
produces the flattened text given by concatenating all text runs with a
single separator at each non-first paragraph boundary and each explicit
break, and an empty range map. -/
theorem markerless_flatten (nodes : List DocNode)
    (hno : ∀ e ∈ nodes, isRangeMarker e = false) :
    ∃ s', extract_highlight_ranges (some nodes) = some s' ∧
      s'.full_text = flattenSpec true nodes ∧
      (∀ id, s'.ranges id = none) ∧ s'.current_range_ids = [] := by
  obtain ⟨s', h1, h2, h3, h4⟩ := walk_no_markers nodes initState rfl hno
  refine ⟨s', h1, by simpa [initState] using h2, fun id => ?_, h4⟩
  rw [h3]
  rfl

/-- Witness for C4: a concrete markerless document with two paragraphs, a
break, and an inert node. -/
theorem markerless_flatten_witness :
    ∃ s', extract_highlight_ranges (some [DocNode.paragraph, DocNode.textRun ['h', 'i'],
        DocNode.paragraph, DocNode.textRun ['y', 'o'], DocNode.lineBreak, DocNode.other])
      = some s' ∧
      s'.full_text = flattenSpec true [DocNode.paragraph, DocNode.textRun ['h', 'i'],
        DocNode.paragraph, DocNode.textRun ['y', 'o'], DocNode.lineBreak, DocNode.other] ∧
      (∀ id, s'.ranges id = none) ∧ s'.current_range_ids = [] :=
  markerless_flatten [DocNode.paragraph, DocNode.textRun ['h', 'i'],
    DocNode.paragraph, DocNode.textRun ['y', 'o'], DocNode.lineBreak, DocNode.other]
    (by decide)

lemma wStep_openInMap (s s' : WalkState) (e : DocNode) (h : wStep s e = some s')
    (hs : OpenInMap s) : OpenInMap s' := by
  cases e with
  | rangeStart b =>
    simp only [wStep, Option.some.injEq] at h
    subst h
    intro id hid
    simp only at hid ⊢
    rcases List.mem_append.mp hid with h1 | h1
    · by_cases hb : id = b
      · subst hb; simp [updateMap]
      · simp only [updateMap, if_neg hb]
        exact hs id h1
    · have hb : id = b := by simpa using h1
      subst hb
      simp [updateMap]
  | rangeEnd b =>
    simp only [wStep] at h
    split at h
    · cases hrem : pyRemove s.current_range_ids b with
      | none => rw [hrem] at h; cases h
      | some l =>
        rw [hrem] at h
        simp only [Option.some.injEq] at h
        subst h
        obtain ⟨_, _, c3⟩ := pyRemove_spec b _ l hrem
        intro id hid
        exact hs id (c3 id hid)
    · simp only [Option.some.injEq] at h
      subst h
      exact hs
  | textRun t =>
    simp only [wStep] at h
    split at h
    · simp only [Option.some.injEq] at h; subst h; exact hs
    · cases hap : appendAll s.current_range_ids s.ranges t with
      | none => rw [hap] at h; cases h
      | some m =>
        rw [hap] at h
        simp only [Option.some.injEq] at h
        subst h
        obtain ⟨i1, _, _⟩ := appendAll_props _ _ _ _ hap
        intro id hid
        exact (i1 id).mpr (hs id hid)
  | paragraph =>
    simp only [wStep] at h
    split at h
    · simp only [Option.some.injEq] at h; subst h; exact hs
    · cases hap : appendAll s.current_range_ids s.ranges newLine with
      | none => rw [hap] at h; cases h
      | some m =>
        rw [hap] at h
        simp only [Option.some.injEq] at h
        subst h
        obtain ⟨i1, _, _⟩ := appendAll_props _ _ _ _ hap
        intro id hid
        exact (i1 id).mpr (hs id hid)
  | lineBreak =>
    simp only [wStep] at h
    cases hap : appendAll s.current_range_ids s.ranges newLine with
    | none => rw [hap] at h; cases h
    | some m =>
      rw [hap] at h
      simp only [Option.some.injEq] at h
      subst h
      obtain ⟨i1, _, _⟩ := appendAll_props _ _ _ _ hap
      intro id hid
      exact (i1 id).mpr (hs id hid)
  | other =>
    simp only [wStep, Option.some.injEq] at h
    subst h
    exact hs

lemma walk_closeSafe : ∀ (l1 l2 : List DocNode) (s : WalkState),
    OpenInMap s → CloseSafe s (l1 ++ l2) → (closesOf (l1 ++ l2)).Nodup →
    ∃ s1, walkAux s l1 = some s1 ∧ OpenInMap s1 ∧ CloseSafe s1 l2 ∧
      (closesOf l2).Nodup := by
  intro l1
  induction l1 with
  | nil =>
    intro l2 s h1 h2 h3
    exact ⟨s, rfl, h1, by simpa using h2, by simpa using h3⟩
  | cons e rest ih =>
    intro l2 s hOpen hCS hnd
    suffices hstep : ∃ s1, wStep s e = some s1 ∧ CloseSafe s1 (rest ++ l2) by
      obtain ⟨s1, hws, hCS1⟩ := hstep
      have hOpen1 := wStep_openInMap s s1 e hws hOpen
      have hnd1 : (closesOf (rest ++ l2)).Nodup := by
        cases e with
        | rangeEnd b =>
          have : closesOf (DocNode.rangeEnd b :: (rest ++ l2))
              = b :: closesOf (rest ++ l2) := by
            simp [closesOf, List.filterMap_cons]
          rw [List.cons_append, this] at hnd
          exact hnd.of_cons
        | rangeStart b =>
          rw [List.cons_append] at hnd
          simpa [closesOf, List.filterMap_cons] using hnd
        | textRun t =>
          rw [List.cons_append] at hnd
          simpa [closesOf, List.filterMap_cons] using hnd
        | paragraph =>
          rw [List.cons_append] at hnd
          simpa [closesOf, List.filterMap_cons] using hnd
        | lineBreak =>
          rw [List.cons_append] at hnd
          simpa [closesOf, List.filterMap_cons] using hnd
        | other =>
          rw [List.cons_append] at hnd
          simpa [closesOf, List.filterMap_cons] using hnd
      obtain ⟨s', hw, ho, hc, hn⟩ := ih l2 s1 hOpen1 hCS1 hnd1
      exact ⟨s', by simp [walkAux, hws]; exact hw, ho, hc, hn⟩
    cases e with
    | rangeStart b =>
      refine ⟨_, rfl, ?_⟩
      intro id hid hsome
      simp only at hsome ⊢
      by_cases hb : id = b
      · subst hb
        simp
      · simp only [updateMap, if_neg hb] at hsome
        have := hCS id (by rw [List.cons_append]; exact List.mem_cons_of_mem _ hid) hsome
        simp [this]
    | rangeEnd b =>
      have hbnotin : b ∉ closesOf (rest ++ l2) := by
        have : closesOf (DocNode.rangeEnd b :: (rest ++ l2))
            = b :: closesOf (rest ++ l2) := by
          simp [closesOf, List.filterMap_cons]
        rw [List.cons_append, this] at hnd
        exact (List.nodup_cons.mp hnd).1
      by_cases hmem : (s.ranges b).isSome
      · have hbin : b ∈ s.current_range_ids :=
          hCS b (by rw [List.cons_append]; simp) hmem
        refine ⟨{ s with current_range_ids := s.current_range_ids.erase b }, ?_, ?_⟩
        · simp [wStep, hmem, pyRemove_eq_erase _ _ hbin]
        · intro id hid hsome
          simp only at hsome ⊢
          have hidb : id ≠ b := by
            intro he
            subst he
            exact hbnotin ((mem_closesOf id (rest ++ l2)).mpr hid)
          have hin := hCS id (by rw [List.cons_append]; exact List.mem_cons_of_mem _ hid) hsome
          exact (List.mem_erase_of_ne hidb).mpr hin
      · refine ⟨s, ?_, ?_⟩
        · have hfalse : (s.ranges b).isSome = false := by simpa using hmem
          simp [wStep, hfalse]
        · intro id hid hsome
          exact hCS id (by rw [List.cons_append]; exact List.mem_cons_of_mem _ hid) hsome
    | textRun t =>
      by_cases ht : t.isEmpty
      · refine ⟨s, by simp [wStep, ht], ?_⟩
        intro id hid hsome
        exact hCS id (by rw [List.cons_append]; exact List.mem_cons_of_mem _ hid) hsome
      · obtain ⟨m, hap⟩ := Option.isSome_iff_exists.mp
          (appendAll_isSome s.current_range_ids s.ranges t hOpen)
        obtain ⟨i1, _, _⟩ := appendAll_props _ _ _ _ hap
        refine ⟨{ s with ranges := m, full_text := s.full_text ++ t },
          by simp [wStep, ht, hap], ?_⟩
        intro id hid hsome
        simp only at hsome ⊢
        exact hCS id (by rw [List.cons_append]; exact List.mem_cons_of_mem _ hid)
          ((i1 id).mp hsome)
    | paragraph =>
      by_cases hb : s.is_first_paragraph = true
      · refine ⟨{ s with is_first_paragraph := false }, by simp [wStep, hb], ?_⟩
        intro id hid hsome
        simp only at hsome ⊢
        exact hCS id (by rw [List.cons_append]; exact List.mem_cons_of_mem _ hid) hsome
      · have hb' : s.is_first_paragraph = false := by simpa using hb
        obtain ⟨m, hap⟩ := Option.isSome_iff_exists.mp
          (appendAll_isSome s.current_range_ids s.ranges newLine hOpen)
        obtain ⟨i1, _, _⟩ := appendAll_props _ _ _ _ hap
        refine ⟨{ s with ranges := m, full_text := s.full_text ++ newLine },
          by simp [wStep, hb', hap], ?_⟩
        intro id hid hsome
        simp only at hsome ⊢
        exact hCS id (by rw [List.cons_append]; exact List.mem_cons_of_mem _ hid)
          ((i1 id).mp hsome)
    | lineBreak =>
      obtain ⟨m, hap⟩ := Option.isSome_iff_exists.mp
        (appendAll_isSome s.current_range_ids s.ranges newLine hOpen)
      obtain ⟨i1, _, _⟩ := appendAll_props _ _ _ _ hap
      refine ⟨{ s with ranges := m, full_text := s.full_text ++ newLine },
        by simp [wStep, hap], ?_⟩
      intro id hid hsome
      simp only at hsome ⊢
      exact hCS id (by rw [List.cons_append]; exact List.mem_cons_of_mem _ hid)
        ((i1 id).mp hsome)
    | other =>
      refine ⟨s, rfl, ?_⟩
      intro id hid hsome
      exact hCS id (by rw [List.cons_append]; exact List.mem_cons_of_mem _ hid) hsome

/-- C5: in a tree where each annotation identifier is opened at most once
and closed at most once, the whole walk never fails; moreover, at any
range-close node reached by the walk, if its identifier is currently open
the step removes it from the open-range list, and if it is not currently
open the step leaves the state unchanged. -/
theorem close_never_fails (nodes : List DocNode)
    (hopen : (opensOf nodes).Nodup) (hclose : (closesOf nodes).Nodup) :
    (walkAux initState nodes).isSome ∧
    ∀ (pre : List DocNode) (id : String) (post : List DocNode) (s : WalkState),
      nodes = pre ++ DocNode.rangeEnd id :: post →
      walkAux initState pre = some s →
      (id ∈ s.current_range_ids →
        wStep s (DocNode.rangeEnd id) =
          some { s with current_range_ids := s.current_range_ids.erase id }) ∧
      (id ∉ s.current_range_ids → wStep s (DocNode.rangeEnd id) = some s) := by
  have hOpen0 : OpenInMap initState := by
    intro id hid
    simp [initState] at hid
  have hCS0 : CloseSafe initState nodes := by
    intro id _ hsome
    simp [initState] at hsome
  constructor
  · obtain ⟨s1, h1, _⟩ := walk_closeSafe nodes [] initState hOpen0
      (by simpa using hCS0) (by simpa using hclose)
    rw [h1]
    rfl
  · intro pre id post s heq hpre
    obtain ⟨s1, h1, hOpen1, hCS1, _⟩ := walk_closeSafe pre (DocNode.rangeEnd id :: post)
      initState hOpen0 (by rw [← heq]; exact hCS0) (by rw [← heq]; exact hclose)
    rw [hpre] at h1
    injection h1 with h1'
    subst h1'
    constructor
    · intro hin
      have hsome := hOpen1 id hin
      simp [wStep, hsome, pyRemove_eq_erase _ _ hin]
    · intro hnin
      have hnone : (s.ranges id).isSome = false := by
        by_contra hcon
        exact hnin (hCS1 id (by simp) (by simpa using Bool.of_not_eq_false hcon))
      simp [wStep, hnone]

/-- Witness for C5: a concrete tree that opens and closes `0` once and has
a close for the never-opened id `1`. -/
theorem close_never_fails_witness :
    (walkAux initState [DocNode.rangeStart "0", DocNode.textRun ['x'],
      DocNode.rangeEnd "0", DocNode.rangeEnd "1"]).isSome ∧
    ∀ (pre : List DocNode) (id : String) (post : List DocNode) (s : WalkState),
      [DocNode.rangeStart "0", DocNode.textRun ['x'],
        DocNode.rangeEnd "0", DocNode.rangeEnd "1"]
        = pre ++ DocNode.rangeEnd id :: post →
      walkAux initState pre = some s →
      (id ∈ s.current_range_ids →
        wStep s (DocNode.rangeEnd id) =
          some { s with current_range_ids := s.current_range_ids.erase id }) ∧
      (id ∉ s.current_range_ids → wStep s (DocNode.rangeEnd id) = some s) :=
  close_never_fails [DocNode.rangeStart "0", DocNode.textRun ['x'],
    DocNode.rangeEnd "0", DocNode.rangeEnd "1"] (by decide) (by decide)

/-- C7 counterexample: in `comment_extractor.py`, a freshly constructed
`HighlightRange` has `section_start = 0`, and `0` is a value
`extract_text_between_tokens` actually returns as a section start, so the
pre-binding value is not a sentinel distinct from every valid section
start. -/
theorem sentinel_counterexample :
    (mkHighlightRange "1" 5).section_start = 0 ∧
    (extract_text_between_tokens ['a'] none none).start = 0 := by
  exact ⟨rfl, by decide⟩

/-- C7 (amended): `main.py`'s `HighlightRange` initializes `section_start`
to the sentinel `-1`, distinct from every section start the locator can
produce (these are all ≥ 0); `comment_extractor.py`'s `HighlightRange`
initializes it to `0`, which coincides with a valid section start. -/
theorem sentinel_amended :
    (∀ cid a, (mkHighlightRangeMain cid a).section_start = -1) ∧
    (∀ cid a, (mkHighlightRange cid a).section_start = 0) ∧
    (∀ (text : List Char) (st et : Option (List Char)),
      0 ≤ (extract_text_between_tokens text st et).start) := by
  refine ⟨fun _ _ => rfl, fun _ _ => rfl, ?_⟩
  intro text st et
  obtain ⟨a, b, ha, _⟩ := extract_section_spec text st et
  rw [ha]
  exact Int.natCast_nonneg a


/-! ### Reconciler (C2) and Reply Filter (C6) -/

lemma ec_cons_no_para (n : CommentNode) (rest : List CommentNode)
    (m : String → Option HighlightRange) (ss : Int) (sub : List (Option String))
    (ia idt : Bool) (now : List Char) (hp : n.has_para = false) :
    extract_comments (n :: rest) m ss sub ia idt now
      = extract_comments rest m ss sub ia idt now := by
  simp [extract_comments, hp]

lemma ec_cons_sub (n : CommentNode) (rest : List CommentNode)
    (m : String → Option HighlightRange) (ss : Int) (sub : List (Option String))
    (ia idt : Bool) (now : List Char) (hp : n.has_para = true) (hs : n.para_id ∈ sub) :
    extract_comments (n :: rest) m ss sub ia idt now
      = extract_comments rest m ss sub ia idt now := by
  simp [extract_comments, hp, hs]

lemma ec_cons_orphan (n : CommentNode) (rest : List CommentNode)
    (m : String → Option HighlightRange) (ss : Int) (sub : List (Option String))
    (ia idt : Bool) (now : List Char) (hp : n.has_para = true) (hs : n.para_id ∉ sub)
    (hm : m n.comment_id = none) :
    extract_comments (n :: rest) m ss sub ia idt now
      = extract_comments rest m ss sub ia idt now := by
  simp [extract_comments, hp, hs, hm]

lemma ec_cons_oos (n : CommentNode) (rest : List CommentNode)
    (m : String → Option HighlightRange) (ss : Int) (sub : List (Option String))
    (ia idt : Bool) (now : List Char) (hr : HighlightRange)
    (hp : n.has_para = true) (hs : n.para_id ∉ sub) (hm : m n.comment_id = some hr)
    (hpos : (hr.absolute_start : Int) - ss < 0) :
    extract_comments (n :: rest) m ss sub ia idt now
      = extract_comments rest m ss sub ia idt now := by
  simp [extract_comments, hp, hs, hm, HighlightRange.get_relative_start, hpos]

lemma ec_cons_emit (n : CommentNode) (rest : List CommentNode)
    (m : String → Option HighlightRange) (ss : Int) (sub : List (Option String))
    (ia idt : Bool) (now : List Char) (hr : HighlightRange)
    (hp : n.has_para = true) (hs : n.para_id ∉ sub) (hm : m n.comment_id = some hr)
    (hpos : ¬ (hr.absolute_start : Int) - ss < 0) :
    extract_comments (n :: rest) m ss sub ia idt now
      = match pyInt n.comment_id.data, extract_comments rest m ss sub ia idt now with
        | none, _ => none
        | some _, none => none
        | some i, some comments =>
          some ({ id := i
                  start := (hr.absolute_start : Int) - ss
                  end_ := (hr.absolute_start : Int) - ss + hr.get_text.length
                  highlighted_text := hr.get_text
                  comment_text := extract_comment_text n.body_texts
                  author := if ia then some (n.author.getD []) else none
                  date := if idt then some (n.date.getD now) else none } :: comments) := by
  simp [extract_comments, hp, hs, hm, HighlightRange.get_relative_start, hpos,
    HighlightRange.get_text]

/-- C2: every record the Reconciler emits comes from a looked-up range and
satisfies `start = absoluteStart - section.start`, `start ≥ 0`, and
`end - start = len(annotatedText)`; an annotation whose relative start is
negative is dropped, emitting no record. -/
theorem reconciler_invariants
    (nodes : List CommentNode) (m : String → Option HighlightRange) (ss : Int)
    (sub : List (Option String)) (ia idt : Bool) (now : List Char)
    (out : List CommentDict)
    (h : extract_comments nodes m ss sub ia idt now = some out) :
    (∀ r ∈ out,
      (∃ n ∈ nodes, ∃ hr, m n.comment_id = some hr ∧
        r.start = (hr.absolute_start : Int) - ss ∧
        r.highlighted_text = hr.get_text) ∧
      0 ≤ r.start ∧ r.end_ - r.start = (r.highlighted_text.length : Int)) ∧
    (∀ (n : CommentNode) (rest : List CommentNode) (hr : HighlightRange),
      n.has_para = true → n.para_id ∉ sub → m n.comment_id = some hr →
      (hr.absolute_start : Int) - ss < 0 →
      extract_comments (n :: rest) m ss sub ia idt now
        = extract_comments rest m ss sub ia idt now) := by
  constructor
  · induction nodes generalizing out with
    | nil =>
      simp only [extract_comments, Option.some.injEq] at h
      subst h
      intro r hrr
      cases hrr
    | cons n rest ih =>
      by_cases hp : n.has_para = true
      · by_cases hsub : n.para_id ∈ sub
        · rw [ec_cons_sub n rest m ss sub ia idt now hp hsub] at h
          intro r hmem
          obtain ⟨⟨n', hn', rest'⟩, b, c⟩ := ih _ h r hmem
          exact ⟨⟨n', List.mem_cons_of_mem _ hn', rest'⟩, b, c⟩
        · cases hm : m n.comment_id with
          | none =>
            rw [ec_cons_orphan n rest m ss sub ia idt now hp hsub hm] at h
            intro r hmem
            obtain ⟨⟨n', hn', rest'⟩, b, c⟩ := ih _ h r hmem
            exact ⟨⟨n', List.mem_cons_of_mem _ hn', rest'⟩, b, c⟩
          | some hrange =>
            by_cases hpos : (hrange.absolute_start : Int) - ss < 0
            · rw [ec_cons_oos n rest m ss sub ia idt now hrange hp hsub hm hpos] at h
              intro r hmem
              obtain ⟨⟨n', hn', rest'⟩, b, c⟩ := ih _ h r hmem
              exact ⟨⟨n', List.mem_cons_of_mem _ hn', rest'⟩, b, c⟩
            · rw [ec_cons_emit n rest m ss sub ia idt now hrange hp hsub hm hpos] at h
              cases hint : pyInt n.comment_id.data with
              | none =>
                cases hrest : extract_comments rest m ss sub ia idt now with
                | none => simp [hint, hrest] at h
                | some comments => simp [hint, hrest] at h
              | some i =>
                cases hrest : extract_comments rest m ss sub ia idt now with
                | none => simp [hint, hrest] at h
                | some comments =>
                  simp only [hint, hrest, Option.some.injEq] at h
                  subst h
                  intro r hmem
                  rcases List.mem_cons.mp hmem with heq | hmem'
                  · subst heq
                    refine ⟨⟨n, List.mem_cons_self _ _, hrange, hm, rfl, rfl⟩,
                      by simp; omega, by simp⟩
                  · obtain ⟨⟨n', hn', rest'⟩, b, c⟩ := ih _ hrest r hmem'
                    exact ⟨⟨n', List.mem_cons_of_mem _ hn', rest'⟩, b, c⟩
      · have hp' : n.has_para = false := by simpa using hp
        rw [ec_cons_no_para n rest m ss sub ia idt now hp'] at h
        intro r hmem
        obtain ⟨⟨n', hn', rest'⟩, b, c⟩ := ih _ h r hmem
        exact ⟨⟨n', List.mem_cons_of_mem _ hn', rest'⟩, b, c⟩
  · intro n rest hr h1 h2 h3 h4
    exact ec_cons_oos n rest m ss sub ia idt now hr h1 h2 h3 h4

/-- Witness for C2 at a concrete comment list and range map. -/
theorem reconciler_invariants_witness :
    (∀ r ∈ [({ id := 7, start := 3, end_ := 5, highlighted_text := ['h', 'i'], comment_text := ['g', 'o', 'o', 'd'], author := none, date := none } : CommentDict)],
      (∃ n ∈ [({ comment_id := "7", has_para := true, para_id := some "p1", author := none, date := none, body_texts := [['g', 'o', 'o', 'd']] } : CommentNode)],
        ∃ hr, (fun k => if k = "7" then some ({ comment_id := "7", absolute_start := 5, section_start := 0, texts := [['h', 'i']] } : HighlightRange) else none) n.comment_id = some hr ∧
          r.start = (hr.absolute_start : Int) - 2 ∧
          r.highlighted_text = hr.get_text) ∧
      0 ≤ r.start ∧ r.end_ - r.start = (r.highlighted_text.length : Int)) ∧
    (∀ (n : CommentNode) (rest : List CommentNode) (hr : HighlightRange),
      n.has_para = true → n.para_id ∉ ([] : List (Option String)) →
      (fun k => if k = "7" then some ({ comment_id := "7", absolute_start := 5, section_start := 0, texts := [['h', 'i']] } : HighlightRange) else none) n.comment_id = some hr →
      (hr.absolute_start : Int) - 2 < 0 →
      extract_comments (n :: rest) (fun k => if k = "7" then some ({ comment_id := "7", absolute_start := 5, section_start := 0, texts := [['h', 'i']] } : HighlightRange) else none) 2 [] false false []
        = extract_comments rest (fun k => if k = "7" then some ({ comment_id := "7", absolute_start := 5, section_start := 0, texts := [['h', 'i']] } : HighlightRange) else none) 2 [] false false []) :=
  reconciler_invariants
    [{ comment_id := "7", has_para := true, para_id := some "p1", author := none, date := none, body_texts := [['g', 'o', 'o', 'd']] }]
    (fun k => if k = "7" then some ({ comment_id := "7", absolute_start := 5, section_start := 0, texts := [['h', 'i']] } : HighlightRange) else none)
    2 [] false false []
    [{ id := 7, start := 3, end_ := 5, highlighted_text := ['h', 'i'], comment_text := ['g', 'o', 'o', 'd'], author := none, date := none }]
    (by decide)

lemma get_sub_comments_foldl (l : List CommentEx) :
    ∀ acc : List (Option String),
      l.foldl (fun acc e => if e.para_id_parent.isSome then acc ++ [e.para_id] else acc) acc
        = acc ++ (l.filter fun e => e.para_id_parent.isSome).map (·.para_id) := by
  induction l with
  | nil => intro acc; simp
  | cons e rest ih =>
    intro acc
    by_cases hp : e.para_id_parent.isSome
    · simp only [List.foldl_cons, if_pos hp, ih, List.filter_cons, hp, if_true]
      simp
    · have hp' : e.para_id_parent.isSome = false := by simpa using hp
      simp only [List.foldl_cons, if_neg hp, ih, List.filter_cons, hp']
      simp

/-- C6: the Reply Filter returns exactly the paragraph ids whose metadata
entry carries a non-null parent id, and the empty set when the extended
metadata is absent; and the Reconciler's output is unchanged when the
reply-owned comment nodes are removed from its input — an annotation whose
owning paragraph id is in the reply set never contributes a record. -/
theorem reply_filter_spec :
    (get_sub_comments none = []) ∧
    (∀ (l : List CommentEx) (x : Option String),
      x ∈ get_sub_comments (some l) ↔ ∃ e ∈ l, e.para_id = x ∧ e.para_id_parent ≠ none) ∧
    (∀ (nodes : List CommentNode) (m : String → Option HighlightRange) (ss : Int)
      (sub : List (Option String)) (ia idt : Bool) (now : List Char),
      extract_comments nodes m ss sub ia idt now
        = extract_comments
            (nodes.filter fun n => !(n.has_para && decide (n.para_id ∈ sub)))
            m ss sub ia idt now) := by
  refine ⟨rfl, ?_, ?_⟩
  · intro l x
    simp only [get_sub_comments, get_sub_comments_foldl, List.nil_append]
    simp only [List.mem_map, List.mem_filter]
    constructor
    · rintro ⟨e, ⟨he, hp⟩, hx⟩
      exact ⟨e, he, hx, by simpa [Option.isSome_iff_ne_none] using hp⟩
    · rintro ⟨e, he, hx, hp⟩
      exact ⟨e, ⟨he, by simpa [Option.isSome_iff_ne_none] using hp⟩, hx⟩
  · intro nodes m ss sub ia idt now
    induction nodes with
    | nil => rfl
    | cons n rest ih =>
      by_cases hp : n.has_para = true
      · by_cases hsub : n.para_id ∈ sub
        · have hdrop : (!(n.has_para && decide (n.para_id ∈ sub))) = false := by
            simp [hp, hsub]
          rw [List.filter_cons, hdrop]
          simp only [Bool.false_eq_true, if_false]
          rw [ec_cons_sub n rest m ss sub ia idt now hp hsub]
          exact ih
        · have hkeep : (!(n.has_para && decide (n.para_id ∈ sub))) = true := by
            simp [hp, hsub]
          rw [List.filter_cons, hkeep]
          simp only [if_true]
          cases hm : m n.comment_id with
          | none =>
            rw [ec_cons_orphan n rest m ss sub ia idt now hp hsub hm,
              ec_cons_orphan n _ m ss sub ia idt now hp hsub hm]
            exact ih
          | some hrange =>
            by_cases hpos : (hrange.absolute_start : Int) - ss < 0
            · rw [ec_cons_oos n rest m ss sub ia idt now hrange hp hsub hm hpos,
                ec_cons_oos n _ m ss sub ia idt now hrange hp hsub hm hpos]
              exact ih
            · rw [ec_cons_emit n rest m ss sub ia idt now hrange hp hsub hm hpos,
                ec_cons_emit n _ m ss sub ia idt now hrange hp hsub hm hpos, ih]
      · have hp' : n.has_para = false := by simpa using hp
        have hkeep : (!(n.has_para && decide (n.para_id ∈ sub))) = true := by
          simp [hp']
        rw [List.filter_cons, hkeep]
        simp only [if_true]
        rw [ec_cons_no_para n rest m ss sub ia idt now hp',
          ec_cons_no_para n _ m ss sub ia idt now hp']
        exact ih

/-! ### Serializer guards (C10) -/

/-- C10: when the section text is empty (Python-falsy, `None` included) or
the annotation list is empty, the inline-marker serializer and the
styled-markup serializer both return the empty string. -/
theorem empty_input_formatters (text : List Char) (comments : List CommentDict)
    (h : text = [] ∨ comments = []) :
    xmlFormat text comments = [] ∧ htmlFormat text comments = [] := by
  rcases h with h | h
  · subst h
    exact ⟨by simp [xmlFormat], by simp [htmlFormat]⟩
  · subst h
    exact ⟨by simp [xmlFormat], by simp [htmlFormat, List.mergeSort]⟩

/-- Witness for C10: a non-empty text with no annotations. -/
theorem empty_input_formatters_witness :
    xmlFormat ['a'] [] = [] ∧ htmlFormat ['a'] [] = [] :=
  empty_input_formatters ['a'] [] (Or.inr rfl)

/-! ### Round-trip of the inline-marker serializer (C8) -/

lemma pyReplaceChar_eq_flatMap (c : Char) (rep : List Char) :
    ∀ s : List Char, pyReplaceChar s c rep = s.flatMap fun x => if x = c then rep else [x] := by
  intro s
  induction s with
  | nil => rfl
  | cons x t ih =>
    by_cases hx : x = c
    · simp [pyReplaceChar, hx, ih]
    · simp [pyReplaceChar, hx, ih]

lemma flatMap_ext (l : List Char) (f g : Char → List Char) (h : ∀ a, f a = g a) :
    l.flatMap f = l.flatMap g := by
  induction l with
  | nil => rfl
  | cons a t ih => simp [List.flatMap_cons, ih, h]

lemma escape_some_eq_flatMap (s : List Char) : escape_xml (some s) = s.flatMap escChar := by
  show pyReplaceChar (pyReplaceChar (pyReplaceChar (pyReplaceChar (pyReplaceChar s
      '&' ("&amp;".data)) '<' ("&lt;".data)) '>' ("&gt;".data))
      quoteChar ("&quot;".data)) apostChar ("&apos;".data) = s.flatMap escChar
  rw [pyReplaceChar_eq_flatMap, pyReplaceChar_eq_flatMap, pyReplaceChar_eq_flatMap,
    pyReplaceChar_eq_flatMap, pyReplaceChar_eq_flatMap]
  rw [List.flatMap_assoc, List.flatMap_assoc, List.flatMap_assoc, List.flatMap_assoc]
  apply flatMap_ext
  intro c
  by_cases h1 : c = '&'
  · subst h1; decide
  · by_cases h2 : c = '<'
    · subst h2; decide
    · by_cases h3 : c = '>'
      · subst h3; decide
      · by_cases h4 : c = quoteChar
        · subst h4; decide
        · by_cases h5 : c = apostChar
          · subst h5; decide
          · simp [escChar, h1, h2, h3, h4, h5]
lemma dropPre_length (p s r : List Char) (h : dropPre p s = some r) :
    r.length ≤ s.length := by
  unfold dropPre at h
  split at h
  · injection h with h
    subst h
    simp
  · cases h

lemma dropPre_head_ne (x y : Char) (p q : List Char) (h : x ≠ y) :
    dropPre (x :: p) (y :: q) = none := by
  have hb : (x == y) = false := beq_eq_false_iff_ne.mpr h
  simp [dropPre, List.isPrefixOf, hb]

lemma dropPre_head2_ne (z x y : Char) (p q : List Char) (h : x ≠ y) :
    dropPre (z :: x :: p) (z :: y :: q) = none := by
  have hb : (x == y) = false := beq_eq_false_iff_ne.mpr h
  simp [dropPre, List.isPrefixOf, hb]

lemma dropPre_append (p r : List Char) : dropPre p (p ++ r) = some r := by
  unfold dropPre
  rw [if_pos (List.isPrefixOf_iff_prefix.mpr (List.prefix_append p r))]
  rw [List.drop_left]

lemma entityOf_length (rest r : List Char) (ch : Char) (h : entityOf rest = some (ch, r)) :
    r.length ≤ rest.length := by
  unfold entityOf at h
  cases h1 : dropPre ("amp;".data) rest with
  | some r1 =>
    simp only [h1, Option.some.injEq, Prod.mk.injEq] at h
    exact h.2 ▸ dropPre_length _ _ _ h1
  | none =>
  simp only [h1] at h
  cases h2 : dropPre ("lt;".data) rest with
  | some r1 =>
    simp only [h2, Option.some.injEq, Prod.mk.injEq] at h
    exact h.2 ▸ dropPre_length _ _ _ h2
  | none =>
  simp only [h2] at h
  cases h3 : dropPre ("gt;".data) rest with
  | some r1 =>
    simp only [h3, Option.some.injEq, Prod.mk.injEq] at h
    exact h.2 ▸ dropPre_length _ _ _ h3
  | none =>
  simp only [h3] at h
  cases h4 : dropPre ("quot;".data) rest with
  | some r1 =>
    simp only [h4, Option.some.injEq, Prod.mk.injEq] at h
    exact h.2 ▸ dropPre_length _ _ _ h4
  | none =>
  simp only [h4] at h
  cases h5 : dropPre ("apos;".data) rest with
  | some r1 =>
    simp only [h5, Option.some.injEq, Prod.mk.injEq] at h
    exact h.2 ▸ dropPre_length _ _ _ h5
  | none =>
    rw [h5] at h
    exact Option.noConfusion h

lemma unescape_cons_ne (c : Char) (hc : c ≠ '&') (rest : List Char) :
    unescapeXml (c :: rest) = c :: unescapeXml rest := by
  rw [unescapeXml, if_neg hc]

lemma unescape_entity (rest r : List Char) (ch : Char)
    (he : entityOf rest = some (ch, r)) :
    unescapeXml ('&' :: rest) = ch :: unescapeXml r := by
  have hlen := entityOf_length rest r ch he
  rw [unescapeXml, if_pos rfl]
  simp only [he]
  rw [dif_pos (by omega)]

lemma entityOf_amp (r : List Char) : entityOf ("amp;".data ++ r) = some ('&', r) := by
  unfold entityOf
  rw [dropPre_append]

lemma entityOf_lt (r : List Char) : entityOf ("lt;".data ++ r) = some ('<', r) := by
  have h1 : dropPre ("amp;".data) ("lt;".data ++ r) = none := by
    have e2 : "lt;".data ++ r = 'l' :: ("t;".data ++ r) := rfl
    rw [show ("amp;".data) = 'a' :: "mp;".data from rfl, e2]
    exact dropPre_head_ne _ _ _ _ (by decide)
  unfold entityOf
  rw [h1, dropPre_append]

lemma entityOf_gt (r : List Char) : entityOf ("gt;".data ++ r) = some ('>', r) := by
  have e2 : "gt;".data ++ r = 'g' :: ("t;".data ++ r) := rfl
  have h1 : dropPre ("amp;".data) ("gt;".data ++ r) = none := by
    rw [show ("amp;".data) = 'a' :: "mp;".data from rfl, e2]
    exact dropPre_head_ne _ _ _ _ (by decide)
  have h2 : dropPre ("lt;".data) ("gt;".data ++ r) = none := by
    rw [show ("lt;".data) = 'l' :: "t;".data from rfl, e2]
    exact dropPre_head_ne _ _ _ _ (by decide)
  unfold entityOf
  rw [h1, h2, dropPre_append]

lemma entityOf_quot (r : List Char) : entityOf ("quot;".data ++ r) = some (quoteChar, r) := by
  have e2 : "quot;".data ++ r = 'q' :: ("uot;".data ++ r) := rfl
  have h1 : dropPre ("amp;".data) ("quot;".data ++ r) = none := by
    rw [show ("amp;".data) = 'a' :: "mp;".data from rfl, e2]
    exact dropPre_head_ne _ _ _ _ (by decide)
  have h2 : dropPre ("lt;".data) ("quot;".data ++ r) = none := by
    rw [show ("lt;".data) = 'l' :: "t;".data from rfl, e2]
    exact dropPre_head_ne _ _ _ _ (by decide)
  have h3 : dropPre ("gt;".data) ("quot;".data ++ r) = none := by
    rw [show ("gt;".data) = 'g' :: "t;".data from rfl, e2]
    exact dropPre_head_ne _ _ _ _ (by decide)
  unfold entityOf
  rw [h1, h2, h3, dropPre_append]

lemma entityOf_apos (r : List Char) : entityOf ("apos;".data ++ r) = some (apostChar, r) := by
  have e2 : "apos;".data ++ r = 'a' :: 'p' :: ("os;".data ++ r) := rfl
  have h1 : dropPre ("amp;".data) ("apos;".data ++ r) = none := by
    rw [show ("amp;".data) = 'a' :: 'm' :: "p;".data from rfl, e2]
    exact dropPre_head2_ne _ _ _ _ _ (by decide)
  have h2 : dropPre ("lt;".data) ("apos;".data ++ r) = none := by
    rw [show ("lt;".data) = 'l' :: "t;".data from rfl, e2]
    exact dropPre_head_ne _ _ _ _ (by decide)
  have h3 : dropPre ("gt;".data) ("apos;".data ++ r) = none := by
    rw [show ("gt;".data) = 'g' :: "t;".data from rfl, e2]
    exact dropPre_head_ne _ _ _ _ (by decide)
  have h4 : dropPre ("quot;".data) ("apos;".data ++ r) = none := by
    rw [show ("quot;".data) = 'q' :: "uot;".data from rfl, e2]
    exact dropPre_head_ne _ _ _ _ (by decide)
  unfold entityOf
  rw [h1, h2, h3, h4, dropPre_append]

lemma unescape_escape_flatMap (s : List Char) : unescapeXml (s.flatMap escChar) = s := by
  induction s with
  | nil => simp [unescapeXml]
  | cons c t ih =>
    rw [List.flatMap_cons]
    by_cases h1 : c = '&'
    · subst h1
      have e : escChar '&' ++ t.flatMap escChar = '&' :: ("amp;".data ++ t.flatMap escChar) := rfl
      rw [e, unescape_entity _ _ _ (entityOf_amp _), ih]
    · by_cases h2 : c = '<'
      · subst h2
        have e : escChar '<' ++ t.flatMap escChar = '&' :: ("lt;".data ++ t.flatMap escChar) := rfl
        rw [e, unescape_entity _ _ _ (entityOf_lt _), ih]
      · by_cases h3 : c = '>'
        · subst h3
          have e : escChar '>' ++ t.flatMap escChar
              = '&' :: ("gt;".data ++ t.flatMap escChar) := rfl
          rw [e, unescape_entity _ _ _ (entityOf_gt _), ih]
        · by_cases h4 : c = quoteChar
          · subst h4
            have e : escChar quoteChar ++ t.flatMap escChar
                = '&' :: ("quot;".data ++ t.flatMap escChar) := rfl
            rw [e, unescape_entity _ _ _ (entityOf_quot _), ih]
          · by_cases h5 : c = apostChar
            · subst h5
              have e : escChar apostChar ++ t.flatMap escChar
                  = '&' :: ("apos;".data ++ t.flatMap escChar) := rfl
              rw [e, unescape_entity _ _ _ (entityOf_apos _), ih]
            · have he : escChar c = [c] := by simp [escChar, h1, h2, h3, h4, h5]
              rw [he, List.singleton_append, unescape_cons_ne c h1, ih]

lemma unescape_escape_some (s : List Char) : unescapeXml (escape_xml (some s)) = s := by
  rw [escape_some_eq_flatMap, unescape_escape_flatMap]

lemma escChar_no_quote (c : Char) : quoteChar ∉ escChar c := by
  unfold escChar
  split_ifs with h1 h2 h3 h4 h5
  · decide
  · decide
  · decide
  · decide
  · decide
  · simp
    exact fun he => h4 he.symm

lemma escape_no_quote (d : Option (List Char)) : ∀ c ∈ escape_xml d, c ≠ quoteChar := by
  cases d with
  | none => intro c hc; cases hc
  | some s =>
    rw [escape_some_eq_flatMap]
    intro c hc he
    subst he
    obtain ⟨a, _, ha⟩ := List.mem_flatMap.mp hc
    exact escChar_no_quote a ha

lemma digitChar_ne_quote (n : Nat) : digitChar n ≠ quoteChar := by
  unfold digitChar
  split_ifs <;> decide

lemma natToStrAux_no_quote : ∀ (fuel n : Nat) (acc : List Char),
    (∀ c ∈ acc, c ≠ quoteChar) → ∀ c ∈ natToStrAux fuel n acc, c ≠ quoteChar := by
  intro fuel
  induction fuel with
  | zero => intro n acc hacc; exact hacc
  | succ fuel ih =>
    intro n acc hacc c hc
    rw [natToStrAux] at hc
    split at hc
    · rcases List.mem_cons.mp hc with h | h
      · subst h; exact digitChar_ne_quote n
      · exact hacc c h
    · refine ih (n / 10) _ ?_ c hc
      intro x hx
      rcases List.mem_cons.mp hx with h | h
      · subst h; exact digitChar_ne_quote (n % 10)
      · exact hacc x h

lemma natToStr_no_quote (n : Nat) : ∀ c ∈ natToStr n, c ≠ quoteChar :=
  natToStrAux_no_quote (n + 1) n [] (fun c hc => absurd hc (List.not_mem_nil c))

lemma readUntilQuote_append (a : List Char) (ha : ∀ c ∈ a, c ≠ quoteChar) (b : List Char) :
    readUntilQuote (a ++ quoteChar :: b) = some (a, b) := by
  induction a with
  | nil => simp [readUntilQuote]
  | cons c t ih =>
    have hc : ¬(c = quoteChar) := ha c (by simp)
    rw [List.cons_append, readUntilQuote, if_neg hc,
      ih (fun x hx => ha x (List.mem_cons_of_mem _ hx))]
    rfl

lemma parse_start_tag (i : Nat) (d : Option (List Char)) (rest : List Char) :
    parseAnyTag (xmlStartTag i d ++ rest)
      = some (false, natToStr i, unescapeXml (escape_xml d), rest) := by
  have e : xmlStartTag i d ++ rest
      = xmlStartPre ++ (natToStr i ++ quoteChar ::
          (xmlDataTail ++ (escape_xml d ++ quoteChar :: (xmlSlashClose ++ rest)))) := by
    simp [xmlStartTag, List.append_assoc]
  have r1 := readUntilQuote_append (natToStr i) (natToStr_no_quote i)
  have r2 := readUntilQuote_append (escape_xml d) (escape_no_quote d)
  rw [e]
  simp only [parseAnyTag, dropPre_append, r1, r2]

lemma startPre_not_prefix_end (R : List Char) :
    dropPre xmlStartPre (xmlEndPre ++ R) = none := by
  have h : xmlStartPre.isPrefixOf (xmlEndPre ++ R) = false := rfl
  simp [dropPre, h]

lemma parse_end_tag (i : Nat) (rest : List Char) :
    parseAnyTag (xmlEndTag i ++ rest) = some (true, natToStr i, [], rest) := by
  have e : xmlEndTag i ++ rest
      = xmlEndPre ++ (natToStr i ++ quoteChar :: (xmlSlashClose ++ rest)) := by
    simp [xmlEndTag, List.append_assoc]
  have r1 := readUntilQuote_append (natToStr i) (natToStr_no_quote i)
  rw [e]
  simp only [parseAnyTag, startPre_not_prefix_end, dropPre_append, r1]

lemma parseAnyTag_ne_lt (c : Char) (hc : c ≠ '<') (r : List Char) :
    parseAnyTag (c :: r) = none := by
  have hb : ('<' == c) = false := beq_eq_false_iff_ne.mpr (Ne.symm hc)
  have h1 : dropPre xmlStartPre (c :: r) = none := by
    rw [show xmlStartPre = '<' :: ("<comment-start id=".data.drop 1 ++ [quoteChar]) by decide]
    simp [dropPre, List.isPrefixOf, hb]
  have h2 : dropPre xmlEndPre (c :: r) = none := by
    rw [show xmlEndPre = '<' :: ("<comment-end id=".data.drop 1 ++ [quoteChar]) by decide]
    simp [dropPre, List.isPrefixOf, hb]
  simp only [parseAnyTag, h1, h2]

lemma readUntilQuote_length : ∀ (s a b : List Char),
    readUntilQuote s = some (a, b) → b.length < s.length := by
  intro s
  induction s with
  | nil => intro a b h; simp [readUntilQuote] at h
  | cons c t ih =>
    intro a b h
    rw [readUntilQuote] at h
    split at h
    · injection h with h
      rw [Prod.mk.injEq] at h
      rcases h with ⟨_, h2⟩
      subst h2
      simp
    · cases hr : readUntilQuote t with
      | none => rw [hr] at h; cases h
      | some p =>
        rw [hr] at h
        injection h with h
        rw [Prod.mk.injEq] at h
        rcases h with ⟨_, h2⟩
        subst h2
        have := ih p.1 p.2 (by rw [hr])
        simp
        omega

lemma dropPre_length_lt (p s r : List Char) (hp : p ≠ [])
    (h : dropPre p s = some r) : r.length < s.length := by
  unfold dropPre at h
  split at h
  · next hpre =>
    injection h with h
    subst h
    have hle := (List.isPrefixOf_iff_prefix.mp hpre).length_le
    have hplen : 0 < p.length := List.length_pos.mpr hp
    simp only [List.length_drop]
    omega
  · cases h

lemma parseAnyTag_length (s : List Char) (b : Bool) (idStr data remaining : List Char)
    (h : parseAnyTag s = some (b, idStr, data, remaining)) :
    remaining.length < s.length := by
  have hs : xmlStartPre ≠ [] := by decide
  have he : xmlEndPre ≠ [] := by decide
  unfold parseAnyTag at h
  cases h1 : dropPre xmlStartPre s with
  | some r1 =>
    simp only [h1] at h
    cases h2 : readUntilQuote r1 with
    | none => simp only [h2] at h; cases h
    | some p2 =>
      obtain ⟨idS, r2⟩ := p2
      simp only [h2] at h
      cases h3 : dropPre xmlDataTail r2 with
      | none => simp only [h3] at h; cases h
      | some r3 =>
        simp only [h3] at h
        cases h4 : readUntilQuote r3 with
        | none => simp only [h4] at h; cases h
        | some p4 =>
          obtain ⟨dataRaw, r4⟩ := p4
          simp only [h4] at h
          cases h5 : dropPre xmlSlashClose r4 with
          | none => simp only [h5] at h; cases h
          | some r5 =>
            simp only [h5, Option.some.injEq, Prod.mk.injEq] at h
            obtain ⟨_, _, _, hrem⟩ := h
            subst hrem
            have l1 := dropPre_length_lt _ _ _ hs h1
            have l2 := readUntilQuote_length _ _ _ h2
            have l3 := dropPre_length _ _ _ h3
            have l4 := readUntilQuote_length _ _ _ h4
            have l5 := dropPre_length _ _ _ h5
            omega
  | none =>
    simp only [h1] at h
    cases h2 : dropPre xmlEndPre s with
    | none => simp only [h2] at h; cases h
    | some r1 =>
      simp only [h2] at h
      cases h3 : readUntilQuote r1 with
      | none => simp only [h3] at h; cases h
      | some p3 =>
        obtain ⟨idS, r2⟩ := p3
        simp only [h3] at h
        cases h4 : dropPre xmlSlashClose r2 with
        | none => simp only [h4] at h; cases h
        | some r3 =>
          simp only [h4, Option.some.injEq, Prod.mk.injEq] at h
          obtain ⟨_, _, _, hrem⟩ := h
          subst hrem
          have l1 := dropPre_length_lt _ _ _ he h2
          have l2 := readUntilQuote_length _ _ _ h3
          have l3 := dropPre_length _ _ _ h4
          omega

lemma parseAnyTag_nil : parseAnyTag [] = none := rfl

lemma scanTagsF_succ (fuel : Nat) (s : List Char) (off : Nat) :
    scanTagsF (fuel + 1) s off
      = match parseAnyTag s with
        | some (b, idStr, data, remaining) =>
          { is_close := b, idStr := idStr, off := off, data := data }
            :: scanTagsF fuel remaining off
        | none =>
          match s with
          | [] => []
          | _ :: rest => scanTagsF fuel rest (off + 1) := rfl

lemma scanTagsF_congr : ∀ (n : Nat) (s : List Char), s.length ≤ n →
    ∀ (fuel fuel' off : Nat), s.length < fuel → s.length < fuel' →
      scanTagsF fuel s off = scanTagsF fuel' s off := by
  intro n
  induction n with
  | zero =>
    intro s hs fuel fuel' off h1 h2
    have hsnil : s = [] := List.length_eq_zero.mp (Nat.le_zero.mp hs)
    subst hsnil
    obtain ⟨f1, rfl⟩ := Nat.exists_eq_add_of_lt h1
    obtain ⟨f2, rfl⟩ := Nat.exists_eq_add_of_lt h2
    rw [scanTagsF_succ, scanTagsF_succ, parseAnyTag_nil]
  | succ n ih =>
    intro s hs fuel fuel' off h1 h2
    obtain ⟨f1, rfl⟩ := Nat.exists_eq_add_of_lt h1
    obtain ⟨f2, rfl⟩ := Nat.exists_eq_add_of_lt h2
    rw [scanTagsF_succ, scanTagsF_succ]
    cases hp : parseAnyTag s with
    | some q =>
      obtain ⟨b, idStr, data, remaining⟩ := q
      simp only [hp]
      have hrem := parseAnyTag_length s b idStr data remaining hp
      rw [ih remaining (by omega) (s.length + f1) (s.length + f2) off (by omega) (by omega)]
    | none =>
      simp only [hp]
      cases s with
      | nil => rfl
      | cons c rest =>
        have hrest : rest.length ≤ n := by
          simp only [List.length_cons] at hs
          omega
        exact ih rest hrest _ _ (off + 1)
          (by simp only [List.length_cons]; omega)
          (by simp only [List.length_cons]; omega)

lemma scanTags_nil (off : Nat) : scanTags [] off = [] := rfl

lemma scanTags_skip (c : Char) (r : List Char) (off : Nat)
    (h : parseAnyTag (c :: r) = none) :
    scanTags (c :: r) off = scanTags r (off + 1) := by
  show scanTagsF ((c :: r).length + 1) (c :: r) off = _
  rw [show (c :: r).length + 1 = (r.length + 1) + 1 by simp]
  rw [scanTagsF_succ, h]
  rfl

lemma scanTags_chunk : ∀ (chunk : List Char), (∀ c ∈ chunk, c ≠ '<') →
    ∀ (rest : List Char) (off : Nat),
      scanTags (chunk ++ rest) off = scanTags rest (off + chunk.length) := by
  intro chunk
  induction chunk with
  | nil => intro _ rest off; simp
  | cons c t ih =>
    intro h rest off
    have hc := h c (by simp)
    rw [List.cons_append, scanTags_skip c (t ++ rest) off (parseAnyTag_ne_lt c hc _)]
    rw [ih (fun x hx => h x (List.mem_cons_of_mem _ hx)) rest (off + 1)]
    congr 1
    simp only [List.length_cons]
    omega

lemma xmlStartTag_len_pos (i : Nat) (d : Option (List Char)) :
    0 < (xmlStartTag i d).length := by
  unfold xmlStartTag
  have e : xmlStartPre.length = 19 := rfl
  simp only [List.length_append]
  omega

lemma xmlEndTag_len_pos (i : Nat) : 0 < (xmlEndTag i).length := by
  unfold xmlEndTag
  have e : xmlEndPre.length = 17 := rfl
  simp only [List.length_append]
  omega

lemma scanTags_start (i : Nat) (d : Option (List Char)) (rest : List Char) (off : Nat) :
    scanTags (xmlStartTag i d ++ rest) off
      = { is_close := false, idStr := natToStr i, off := off,
          data := unescapeXml (escape_xml d) } :: scanTags rest off := by
  show scanTagsF ((xmlStartTag i d ++ rest).length + 1) _ off = _
  rw [scanTagsF_succ, parse_start_tag]
  show _ :: scanTagsF ((xmlStartTag i d ++ rest).length) rest off = _
  congr 1
  apply scanTagsF_congr ((xmlStartTag i d ++ rest).length) rest
  · rw [List.length_append]
    omega
  · rw [List.length_append]
    have := xmlStartTag_len_pos i d
    omega
  · omega

lemma scanTags_end (i : Nat) (rest : List Char) (off : Nat) :
    scanTags (xmlEndTag i ++ rest) off
      = { is_close := true, idStr := natToStr i, off := off, data := [] }
          :: scanTags rest off := by
  show scanTagsF ((xmlEndTag i ++ rest).length + 1) _ off = _
  rw [scanTagsF_succ, parse_end_tag]
  show _ :: scanTagsF ((xmlEndTag i ++ rest).length) rest off = _
  congr 1
  apply scanTagsF_congr ((xmlEndTag i ++ rest).length) rest
  · rw [List.length_append]
    omega
  · rw [List.length_append]
    have := xmlEndTag_len_pos i
    omega
  · omega

lemma unescape_nil : unescapeXml [] = [] := by
  rw [unescapeXml]

lemma unescape_escape_none : unescapeXml (escape_xml none) = [] := by
  show unescapeXml [] = []
  exact unescape_nil

lemma pyIdx_of_bounds (len : Nat) (i : Int) (h0 : 0 ≤ i) (hl : i ≤ (len : Int)) :
    pyIdx len i = i.toNat := by
  unfold pyIdx
  rw [if_neg (by omega)]
  omega

lemma pySliceI_eq (text : List Char) (a b : Int) (h0 : 0 ≤ a) (hab : a ≤ b)
    (hb : b ≤ (text.length : Int)) :
    pySliceI text a b = (text.take b.toNat).drop a.toNat := by
  unfold pySliceI
  rw [pyIdx_of_bounds _ _ (le_trans h0 hab) hb, pyIdx_of_bounds _ _ h0 (le_trans hab hb)]

lemma mem_enumFrom_snd {α : Type} : ∀ (l : List α) (n : Nat) (p : Nat × α),
    p ∈ l.enumFrom n → p.2 ∈ l := by
  intro l
  induction l with
  | nil => intro n p hp; simp [List.enumFrom] at hp
  | cons a t ih =>
    intro n p hp
    rw [List.enumFrom_cons] at hp
    rcases List.mem_cons.mp hp with h | h
    · subst h; simp
    · exact List.mem_cons_of_mem _ (ih (n + 1) p h)

lemma mem_enum_snd {α : Type} (l : List α) (p : Nat × α) (hp : p ∈ l.enum) : p.2 ∈ l :=
  mem_enumFrom_snd l 0 p hp

lemma tagLE_trans (a b c : TagPos) : tagLE a b → tagLE b c → tagLE a c := by
  simp only [tagLE, decide_eq_true_eq]
  intro hab hbc
  rcases hab with h | ⟨h, h'⟩ <;> rcases hbc with g | ⟨g, g'⟩
  · exact Or.inl (by omega)
  · exact Or.inl (by omega)
  · exact Or.inl (by omega)
  · exact Or.inr ⟨by omega, le_trans h' g'⟩

lemma tagLE_total (a b : TagPos) : tagLE a b || tagLE b a := by
  simp only [tagLE, Bool.or_eq_true, decide_eq_true_eq]
  rcases lt_trichotomy a.pos b.pos with h | h | h
  · exact Or.inl (Or.inl h)
  · rcases Nat.le_total (tagRank a) (tagRank b) with hr | hr
    · exact Or.inl (Or.inr ⟨h, hr⟩)
    · exact Or.inr (Or.inr ⟨h.symm, hr⟩)
  · exact Or.inr (Or.inl h)

lemma scan_build (text : List Char) (hlt : ∀ c ∈ text, c ≠ '<') :
    ∀ (ps : List TagPos) (cur : Int), 0 ≤ cur → cur ≤ (text.length : Int) →
      (∀ t ∈ ps, cur ≤ t.pos ∧ t.pos ≤ (text.length : Int)) →
      ps.Pairwise (fun a b => a.pos ≤ b.pos) →
      (∀ t ∈ ps, t.tag_is_end = true → t.data = none) →
      scanTags (xmlBuild text cur ps) cur.toNat
        = ps.map fun t =>
            { is_close := t.tag_is_end, idStr := natToStr t.idx, off := t.pos.toNat,
              data := unescapeXml (escape_xml t.data) } := by
  intro ps
  induction ps with
  | nil =>
    intro cur h0 hl hb hpw hend
    show scanTags (text.drop (pyIdx text.length cur)) cur.toNat = []
    have hchunk : ∀ c ∈ text.drop (pyIdx text.length cur), c ≠ '<' :=
      fun c hc => hlt c (List.mem_of_mem_drop hc)
    have hstep := scanTags_chunk (text.drop (pyIdx text.length cur)) hchunk [] cur.toNat
    rw [List.append_nil] at hstep
    rw [hstep, scanTags_nil]
  | cons t rest ih =>
    intro cur h0 hl hb hpw hend
    obtain ⟨hb1, hb2⟩ := hb t (List.mem_cons_self t rest)
    show scanTags (pySliceI text cur t.pos ++ xmlTagOf t ++ xmlBuild text t.pos rest)
        cur.toNat = _
    rw [List.append_assoc]
    have hslice := pySliceI_eq text cur t.pos h0 hb1 hb2
    have hchunk : ∀ c ∈ pySliceI text cur t.pos, c ≠ '<' := by
      rw [hslice]
      exact fun c hc => hlt c (List.mem_of_mem_take (List.mem_of_mem_drop hc))
    have hlen : (pySliceI text cur t.pos).length = t.pos.toNat - cur.toNat := by
      rw [hslice, List.length_drop, List.length_take]
      omega
    rw [scanTags_chunk _ hchunk, hlen]
    have hoff : cur.toNat + (t.pos.toNat - cur.toNat) = t.pos.toNat := by omega
    rw [hoff]
    have hrec := ih t.pos (le_trans h0 hb1) hb2
      (fun u hu => ⟨List.rel_of_pairwise_cons hpw hu, (hb u (List.mem_cons_of_mem _ hu)).2⟩)
      hpw.of_cons
      (fun u hu he => hend u (List.mem_cons_of_mem _ hu) he)
    cases hte : t.tag_is_end with
    | false =>
      rw [show xmlTagOf t = xmlStartTag t.idx t.data by simp [xmlTagOf, hte]]
      rw [scanTags_start, hrec, List.map_cons]
      simp [hte]
    | true =>
      have hdata := hend t (List.mem_cons_self t rest) hte
      rw [show xmlTagOf t = xmlEndTag t.idx by simp [xmlTagOf, hte]]
      rw [scanTags_end, hrec, List.map_cons]
      simp [hte, hdata, unescape_escape_none]

/-- C8: `XmlFormatter.format` inserts paired open/close markers at each
record's start/end offsets, breaking ties at equal offsets by placing close
markers before open markers, and escapes reserved markup characters in the
body text; re-parsing the start/end-tagged spans of its output recovers
exactly the original (start, end, body-text) triples — the re-parsed tag
list is a permutation (the tie-break reordering) of the records' own
start/end entries, with each body text restored verbatim by unescaping. -/
theorem xml_round_trip (text : List Char) (comments : List CommentDict)
    (htext : text ≠ []) (hcom : comments ≠ [])
    (hlt : ∀ c ∈ text, c ≠ '<')
    (hbounds : ∀ c ∈ comments,
      0 ≤ c.start ∧ c.start ≤ c.end_ ∧ c.end_ ≤ (text.length : Int)) :
    (scanTags (xmlFormat text comments) 0).Perm
      (comments.enum.flatMap fun p =>
        [{ is_close := false, idStr := natToStr p.1, off := p.2.start.toNat,
           data := p.2.comment_text },
         { is_close := true, idStr := natToStr p.1, off := p.2.end_.toNat,
           data := [] }]) := by
  have h1 : text.isEmpty = false := by
    cases text with
    | nil => exact absurd rfl htext
    | cons a l => rfl
  have h2 : comments.isEmpty = false := by
    cases comments with
    | nil => exact absurd rfl hcom
    | cons a l => rfl
  have hxml : xmlFormat text comments
      = xmlBuild text 0 ((tagEntries comments).mergeSort tagLE) := by
    unfold xmlFormat tagEntries
    rw [h1, h2]
    rfl
  have hPmem : ∀ u ∈ tagEntries comments,
      (0 ≤ u.pos ∧ u.pos ≤ (text.length : Int)) ∧ (u.tag_is_end = true → u.data = none) := by
    intro u hu
    unfold tagEntries at hu
    obtain ⟨p, hp, hin⟩ := List.mem_flatMap.mp hu
    have hc : p.2 ∈ comments := mem_enum_snd comments p hp
    obtain ⟨hs0, hse, hsl⟩ := hbounds p.2 hc
    rcases List.mem_cons.mp hin with rfl | hin2
    · exact ⟨⟨hs0, le_trans hse hsl⟩, fun h => nomatch h⟩
    · rcases List.mem_singleton.mp hin2 with rfl
      exact ⟨⟨le_trans hs0 hse, hsl⟩, fun _ => rfl⟩
  have hmemS : ∀ u ∈ (tagEntries comments).mergeSort tagLE,
      (0 ≤ u.pos ∧ u.pos ≤ (text.length : Int)) ∧ (u.tag_is_end = true → u.data = none) :=
    fun u hu =>
      hPmem u ((List.mergeSort_perm (tagEntries comments) tagLE).mem_iff.mp hu)
  have hsorted := List.sorted_mergeSort tagLE_trans tagLE_total (tagEntries comments)
  have hpw : ((tagEntries comments).mergeSort tagLE).Pairwise (fun a b => a.pos ≤ b.pos) := by
    refine hsorted.imp ?_
    intro a b hab
    simp only [tagLE, decide_eq_true_eq] at hab
    rcases hab with h | ⟨h, h'⟩
    · omega
    · omega
  have hmain := scan_build text hlt ((tagEntries comments).mergeSort tagLE) 0
    le_rfl (by omega)
    (fun u hu => ⟨(hmemS u hu).1.1, (hmemS u hu).1.2⟩)
    hpw
    (fun u hu => (hmemS u hu).2)
  rw [show ((0 : Int).toNat) = 0 from rfl] at hmain
  rw [hxml, hmain]
  have heq : (tagEntries comments).map (fun t =>
      ({ is_close := t.tag_is_end, idStr := natToStr t.idx, off := t.pos.toNat,
         data := unescapeXml (escape_xml t.data) } : ScanTag))
      = comments.enum.flatMap fun p =>
          [({ is_close := false, idStr := natToStr p.1, off := p.2.start.toNat,
              data := p.2.comment_text } : ScanTag),
           { is_close := true, idStr := natToStr p.1, off := p.2.end_.toNat,
             data := [] }] := by
    unfold tagEntries
    rw [List.map_flatMap]
    refine List.flatMap_congr ?_
    intro p hp
    simp only [List.map_cons, List.map_nil, unescape_escape_some, unescape_escape_none]
  refine ((List.mergeSort_perm (tagEntries comments) tagLE).map _).trans ?_
  rw [heq]

/-- Witness for C8: the serializer followed by the re-parser on a concrete
essay and a single comment whose body contains a reserved character. -/
theorem xml_round_trip_witness :
    (scanTags (xmlFormat ['a', 'b', 'c']
        [{ id := 0, start := 1, end_ := 2, highlighted_text := ['b'],
           comment_text := ['x', '<', 'y'], author := none, date := none }]) 0).Perm
      (([({ id := 0, start := 1, end_ := 2, highlighted_text := ['b'],
            comment_text := ['x', '<', 'y'], author := none,
            date := none } : CommentDict)]).enum.flatMap fun p =>
        [{ is_close := false, idStr := natToStr p.1, off := p.2.start.toNat,
           data := p.2.comment_text },
         { is_close := true, idStr := natToStr p.1, off := p.2.end_.toNat,
           data := [] }]) :=
  xml_round_trip ['a', 'b', 'c']
    [{ id := 0, start := 1, end_ := 2, highlighted_text := ['b'],
       comment_text := ['x', '<', 'y'], author := none, date := none }]
    (by decide) (by decide) (by decide) (by decide)

/-- Witness for C6 at a concrete extended-metadata list. -/
theorem reply_filter_spec_witness :
    some "r1" ∈ get_sub_comments (some
      [({ para_id := some "r1", para_id_parent := some "p0" } : CommentEx),
       { para_id := some "p0", para_id_parent := none }]) ↔
      ∃ e ∈ [({ para_id := some "r1", para_id_parent := some "p0" } : CommentEx),
       { para_id := some "p0", para_id_parent := none }],
        e.para_id = some "r1" ∧ e.para_id_parent ≠ none :=
  reply_filter_spec.2.1
    [{ para_id := some "r1", para_id_parent := some "p0" },
     { para_id := some "p0", para_id_parent := none }] (some "r1")

end DocComment
